import Mathlib

/-!
Verification of the sf-metadata-adjust canonicalization core.

The development shallowly embeds the TypeScript sources:
* `src/common/xml/xml-helpers.ts` — entity guard (`prefixXmlEntities`,
  `restoreXmlEntities`), builder (`buildMetadataXml`);
* `src/common/xml/sorter.ts` — `sortClassAccesses`, `sortArrayElements`,
  `sortXmlElements`;
* `src/sf-metadata-adjuster.ts` — `buildXml`, `processFile` pipeline;
* `src/common/helper/string.ts` — `hashString` (SHA-256 hex digest).

Strings are modelled as `List Char`; JavaScript
`String.prototype.replace` with a global regex whose pattern is a
literal (as used by the entity guard) is modelled by `replaceL`:
leftmost, non-overlapping replacement of every occurrence, never
rescanning replacement text.
-/

/-- `hasPref p s` holds iff the list `s` starts with the pattern `p`
(the JavaScript `String.prototype.startsWith` on the underlying
character sequence). -/
def hasPref (p s : List Char) : Bool :=
  s.take p.length == p

/-- `contSub p s`: the pattern `p` occurs as a contiguous substring of
`s` (JavaScript `String.prototype.includes`). -/
def contSub (p : List Char) : List Char → Bool
  | [] => hasPref p []
  | c :: t => hasPref p (c :: t) || contSub p t

/-- Leftmost, non-overlapping replacement of every occurrence of the
nonempty literal pattern `p` by `r`, scanning left to right and not
rescanning replacement text: the semantics of the JavaScript
`s.replace(/p/g, r)` calls in the entity guard. An empty pattern is
treated as never matching (the source only uses nonempty patterns). -/
def replaceL (p r : List Char) (s : List Char) : List Char :=
  match s with
  | [] => []
  | c :: t =>
    if p ≠ [] ∧ hasPref p (c :: t) then
      r ++ replaceL p r (t.drop (p.length - 1))
    else
      c :: replaceL p r t
termination_by s.length
decreasing_by
  · simp only [List.length_cons]
    have := List.length_drop (p.length - 1) t
    omega
  · simp

/-- The marker token `___ENTITY_MARKER___` from `xml-helpers.ts`. -/
def entMarker : List Char := "___ENTITY_MARKER___".data

def eAmp : List Char := "&amp;".data
def eLt : List Char := "&lt;".data
def eGt : List Char := "&gt;".data
def eQuot : List Char := "&quot;".data
def eApos : List Char := "&apos;".data

def mAmp : List Char := entMarker ++ "amp;".data
def mLt : List Char := entMarker ++ "lt;".data
def mGt : List Char := entMarker ++ "gt;".data
def mQuot : List Char := entMarker ++ "quot;".data
def mApos : List Char := entMarker ++ "apos;".data

/-- `prefixXmlEntities` of `xml-helpers.ts` (and the identical private
copy in `sf-metadata-adjuster.ts`), on character lists: five sequential
global replaces, in source order apos, quot, amp, lt, gt. -/
def maskL (s : List Char) : List Char :=
  replaceL eGt mGt (replaceL eLt mLt (replaceL eAmp mAmp
    (replaceL eQuot mQuot (replaceL eApos mApos s))))

/-- `restoreXmlEntities` of `xml-helpers.ts` (and the identical private
copy in `sf-metadata-adjuster.ts`), on character lists: five sequential
global replaces, in source order amp, lt, gt, quot, apos. -/
def unmaskL (s : List Char) : List Char :=
  replaceL mApos eApos (replaceL mQuot eQuot (replaceL mGt eGt
    (replaceL mLt eLt (replaceL mAmp eAmp s))))

/-- `prefixXmlEntities(xmlString)` from `src/common/xml/xml-helpers.ts`. -/
def prefixXmlEntities (s : String) : String :=
  String.mk (maskL s.data)

/-- `restoreXmlEntities(xmlString)` from `src/common/xml/xml-helpers.ts`. -/
def restoreXmlEntities (s : String) : String :=
  String.mk (unmaskL s.data)

/-- A string is marker-free when the token `___ENTITY_MARKER___` does
not occur in it. -/
def markerFree (s : String) : Prop :=
  contSub entMarker s.data = false

instance (s : String) : Decidable (markerFree s) := by
  unfold markerFree
  infer_instance

/-!
## The parsed-document value model

`xml2js` with `explicitArray: true, explicitRoot: false, attrkey: '$',
charkey: '_'` produces plain JavaScript values: strings, arrays,
objects (insertion-ordered, unique keys) and `null`/`undefined`.
`JVal` models exactly these shapes; `JVal.null` stands for both
`null` and `undefined` (the sorter treats them identically).
-/

inductive JVal where
  | str (s : String)
  | arr (xs : List JVal)
  | obj (kvs : List (String × JVal))
  | null

instance : Inhabited JVal := ⟨JVal.null⟩

/-- JavaScript `typeof v === 'object'`: true for objects, arrays and
`null`, false for strings. -/
def isObjType : JVal → Bool
  | .obj _ => true
  | .arr _ => true
  | .null => true
  | .str _ => false

/-- First-match property lookup in an insertion-ordered object
(JavaScript objects have unique keys, so first match is the match). -/
def jLookup (kvs : List (String × JVal)) (k : String) : Option JVal :=
  match kvs with
  | [] => none
  | (k1, v) :: t => if k1 = k then some v else jLookup t k

/-- Index lookup `xs[k]` for a JavaScript array, where `k` is a
property name: it hits iff `k` is the decimal form of an index. -/
def idxLookupAux (i : Nat) (xs : List JVal) (k : String) : Option JVal :=
  match xs with
  | [] => none
  | x :: t => if Nat.repr i = k then some x else idxLookupAux (i + 1) t k

/-- Index lookup `s[k]` for a JavaScript string: a one-character
string at the matching index. -/
def chrLookupAux (i : Nat) (cs : List Char) (k : String) : Option JVal :=
  match cs with
  | [] => none
  | c :: t => if Nat.repr i = k then some (JVal.str (String.mk [c])) else chrLookupAux (i + 1) t k

/-- JavaScript property access `v[k]` for the value shapes in play
(`undefined` is `none`). Property access on `null` would throw in
JavaScript; it cannot occur on parsed documents and is modelled as
`none`. -/
def getField (a : JVal) (k : String) : Option JVal :=
  match a with
  | .obj kvs => jLookup kvs k
  | .arr xs => idxLookupAux 0 xs k
  | .str s => chrLookupAux 0 s.data k
  | .null => none

/-- JavaScript string coercion of an array element position: `null`
and `undefined` render empty, arrays join with commas, objects render
as `[object Object]`. -/
def jStrElem : JVal → String
  | .str s => s
  | .null => ""
  | .obj _ => "[object Object]"
  | .arr xs => String.intercalate "," (xs.attach.map (fun p => jStrElem p.1))
decreasing_by
  have := List.sizeOf_lt_of_mem p.2
  simp only [JVal.arr.sizeOf_spec]
  omega

/-- The JavaScript `x || fallback` test on an optional value, returning
the string the comparison will see when `x` is truthy: empty strings,
`null` and `undefined` are falsy; truthy non-strings are coerced. -/
def truthyStr : Option JVal → Option String
  | none => none
  | some (.str s) => if s = "" then none else some s
  | some .null => none
  | some v => some (jStrElem v)

/-- `a.k1?.[0] || a.k2?.[0] || ... || ''`: probe the candidate fields
in order, take the first truthy `field?.[0]`, else the empty string.
`v?.[0]` is `getField v "0"` guarded on `null`/`undefined`. -/
def valChain (a : JVal) : List String → String
  | [] => ""
  | k :: ks =>
    match truthyStr ((getField a k).bind (fun v => getField v "0")) with
    | some s => s
    | none => valChain a ks

/-- Structural lexicographic comparison of character sequences: the
order JavaScript `<` uses on strings (code-unit comparison; identical
to code-point comparison on the characters in play). -/
def ltB : List Char → List Char → Bool
  | [], [] => false
  | [], _ :: _ => true
  | _ :: _, [] => false
  | a :: as, b :: bs => if a < b then true else if b < a then false else ltB as bs

/-- JavaScript `a < b` on strings. -/
def strLtB (a b : String) : Bool := ltB a.data b.data

/-- The comparator result of `if (a < b) return -1; if (a > b) return 1;
return 0;` on JavaScript strings (lexicographic, case-sensitive). -/
def cmpStr (a b : String) : Ordering :=
  if strLtB a b then Ordering.lt else if strLtB b a then Ordering.gt else Ordering.eq

/-- The candidate test of the generic fallback in `sortArrayElements`:
`k === 'name' || k === 'fullName' || k === 'field' || k.includes('Name')`. -/
def isCand (k : String) : Bool :=
  k == "name" || k == "fullName" || k == "field" || contSub "Name".data k.data

/-- JavaScript `Object.keys`: insertion-ordered own keys for objects,
decimal index strings for arrays and strings, nothing for `null`
(where the source would throw). -/
def jsKeys : JVal → List String
  | .obj kvs => kvs.map Prod.fst
  | .arr xs => (List.range xs.length).map Nat.repr
  | .str s => (List.range s.length).map Nat.repr
  | .null => []

/-- The comparator of `sortClassAccesses` in `sorter.ts`:
compare `a.apexClass?.[0] || ''` with `b.apexClass?.[0] || ''`. -/
def compCA (a b : JVal) : Ordering :=
  cmpStr (valChain a ["apexClass"]) (valChain b ["apexClass"])

/-- The candidate chain of the Salesforce-specific branch of
`sortArrayElements`: `name`, `object`, `recordType`, `tab`, `isoCode`. -/
def sfCands : List String := ["name", "object", "recordType", "tab", "isoCode"]

/-- The comparator of `sortArrayElements` in `sorter.ts`, parametrised
by the sequence's context key `arrayKey`.  The generic branch computes
the sort key from the FIRST argument's own keys and uses it for both
sides (exactly as the source does). -/
def compArr (arrayKey : String) (a b : JVal) : Ordering :=
  if arrayKey = "fieldPermissions" then
    cmpStr (valChain a ["field"]) (valChain b ["field"])
  else if arrayKey = "customPermissions" ∨ arrayKey = "customMetadataTypeAccesses" ∨
      arrayKey = "externalCredentialPrincipalAccesses" ∨ arrayKey = "objectPermissions" ∨
      arrayKey = "recordTypeVisibilities" ∨ arrayKey = "tabVisibilities" ∨
      arrayKey = "states" then
    cmpStr (valChain a sfCands) (valChain b sfCands)
  else
    match jsKeys a with
    | [] => Ordering.eq
    | k0 :: kt =>
      let sortKey := (((k0 :: kt).find? isCand).getD k0)
      cmpStr (valChain a [sortKey]) (valChain b [sortKey])

/-!
## The sort algorithm

`Array.prototype.sort` in the Node.js runtime is a stable sort; for
short arrays it is a binary/linear insertion sort that moves the new
element left past exactly those earlier elements `y` with
`comparator(y, x) > 0`.  `jsSort` reproduces this: it is stable, and
for comparators induced by a key function it produces the unique
stable sort by that key.
-/

/-- Insert `x` into the reversed already-sorted prefix: skip (keep to
the right of `x`) the elements `y` with `comparator(y, x) > 0`. -/
def insertRevJS (gtx : α → Bool) (x : α) : List α → List α
  | [] => [x]
  | y :: ys => if gtx y then y :: insertRevJS gtx x ys else x :: y :: ys

/-- Insertion sort accumulating the reversed sorted prefix. -/
def jsSortAux (c : α → α → Ordering) (acc : List α) : List α → List α
  | [] => acc
  | x :: xs => jsSortAux c (insertRevJS (fun y => c y x == Ordering.gt) x acc) xs

/-- `arr.sort(comparator)` as run by the Node.js runtime on the
sorter's comparators. -/
def jsSort (c : α → α → Ordering) (l : List α) : List α :=
  (jsSortAux c [] l).reverse

/-- `sortClassAccesses(classAccesses)` from `sorter.ts`. -/
def sortClassAccesses (l : List JVal) : List JVal :=
  jsSort compCA l

/-- `sortArrayElements(arr, arrayKey)` from `sorter.ts`. -/
def sortArrayElements (l : List JVal) (arrayKey : String) : List JVal :=
  jsSort (compArr arrayKey) l

/-- Truthiness of the optional `parentKey` argument (a string is falsy
iff empty, `undefined` is falsy). -/
def keyTruthy : Option String → Bool
  | none => false
  | some k => !(k == "")

/-- `obj.length > 0 && typeof obj[0] === 'object'`. -/
def headIsObj : List JVal → Bool
  | [] => false
  | x :: _ => isObjType x

/-- `sortXmlElements(obj, parentKey)` from `sorter.ts`: recursively
sort mapping keys case-sensitively and sort sequences according to
their context key.  Sequences are sorted first and their elements
canonicalized afterwards, exactly as in the source (`sorted.map(item =>
sortXmlElements(item))`); the recursion is routed through `attach` only
to justify termination. -/
def sortXmlElements (v : JVal) (parentKey : Option String) : JVal :=
  match v with
  | .null => .null
  | .str s => .str s
  | .arr xs =>
    if parentKey = some "classAccesses" then
      .arr ((jsSort (fun p q => compCA p.1 q.1) xs.attach).map
        (fun p => sortXmlElements p.1 none))
    else if keyTruthy parentKey && headIsObj xs then
      .arr ((jsSort (fun p q => compArr (parentKey.getD "") p.1 q.1) xs.attach).map
        (fun p => sortXmlElements p.1 none))
    else
      .arr (xs.attach.map (fun p => sortXmlElements p.1 none))
  | .obj kvs =>
    .obj (jsSort (fun p q => cmpStr p.1 q.1)
      (kvs.attach.map (fun p => (p.1.1, sortXmlElements p.1.2 (some p.1.1)))))
termination_by sizeOf v
decreasing_by
  all_goals
    have h1 := List.sizeOf_lt_of_mem p.2
  · simp only [JVal.arr.sizeOf_spec]; omega
  · simp only [JVal.arr.sizeOf_spec]; omega
  · simp only [JVal.arr.sizeOf_spec]; omega
  · have h2 : sizeOf p.1.2 < sizeOf p.1 := by
      cases p.1 with
      | mk a b => simp only [Prod.mk.sizeOf_spec]; omega
    simp only [JVal.obj.sizeOf_spec]
    omega

/-!
## Named sort-key functions

The three explicit branches of the sorter compare elements through a
key function of the element alone; these names let theorems speak
about "the sort key" of an element in a given context.
-/

/-- Sort key used for `classAccesses` elements: `apexClass?.[0] || ''`. -/
def keyCA (a : JVal) : String := valChain a ["apexClass"]

/-- Sort key used for `fieldPermissions` elements: `field?.[0] || ''`. -/
def keyFP (a : JVal) : String := valChain a ["field"]

/-- Sort key used for the seven named Salesforce contexts:
`name/object/recordType/tab/isoCode` probed in order. -/
def keySF (a : JVal) : String := valChain a sfCands

/-- The seven context keys of the Salesforce-specific branch of
`sortArrayElements`. -/
def sfCtxKeys : List String :=
  ["customPermissions", "customMetadataTypeAccesses",
   "externalCredentialPrincipalAccesses", "objectPermissions",
   "recordTypeVisibilities", "tabVisibilities", "states"]

/-- The sort key `sortArrayElements` and `sortClassAccesses` use for an
element in context `k`, for the contexts of the rule table. -/
def sortKeyFor (k : String) (a : JVal) : String :=
  if k = "classAccesses" then keyCA a
  else if k = "fieldPermissions" then keyFP a
  else keySF a

/-- The candidate field names probed by the rule-table context `k`. -/
def keyFieldsFor (k : String) : List String :=
  if k = "classAccesses" then ["apexClass"]
  else if k = "fieldPermissions" then ["field"]
  else sfCands

/-- An array whose elements are all scalars (strings). -/
def scalarArr : JVal → Bool
  | .arr xs => xs.all (fun x => match x with | .str _ => true | _ => false)
  | _ => false

/-- A sequence element whose rule-table sort key is canonicalization-
invariant: either a scalar, or a mapping with unique keys whose
candidate key fields (if present) hold arrays of scalars. -/
def elemStable (fields : List String) : JVal → Bool
  | .str _ => true
  | .obj kvs =>
    (kvs.map Prod.fst).Nodup &&
      fields.all (fun f =>
        match jLookup kvs f with
        | none => true
        | some v => scalarArr v)
  | _ => false

/-!
## Trees with pass-stable sort keys

`goodTree v ctx` delimits a class of documents on which
canonicalization is idempotent: every sorted sequence lies under a
rule-table context key (`classAccesses`, `fieldPermissions`, or the
seven named Salesforce contexts) with canonicalization-stable element
keys, or is too short / not element-sorted to be reordered at all.
Sequences sorted through the generic fallback with two or more mapping
elements are excluded: their sort key is chosen from the first
element's key ORDER, which canonicalization itself changes.
-/

def goodTree (v : JVal) (ctx : Option String) : Bool :=
  match v with
  | .str _ => true
  | .null => false
  | .obj kvs =>
    ((kvs.map Prod.fst).Nodup) &&
      kvs.attach.all (fun p => goodTree p.1.2 (some p.1.1))
  | .arr xs =>
    if ctx = some "classAccesses" then
      xs.attach.all (fun p => elemStable ["apexClass"] p.1 && goodTree p.1 none)
    else if keyTruthy ctx && headIsObj xs then
      if ctx = some "fieldPermissions" then
        xs.attach.all (fun p => elemStable ["field"] p.1 && goodTree p.1 none)
      else if (ctx.getD "") ∈ sfCtxKeys then
        xs.attach.all (fun p => elemStable sfCands p.1 && goodTree p.1 none)
      else
        decide (xs.length ≤ 1) && xs.attach.all (fun p => goodTree p.1 none)
    else
      xs.attach.all (fun p => goodTree p.1 none)
termination_by sizeOf v
decreasing_by
  all_goals have h1 := List.sizeOf_lt_of_mem p.2
  · have h2 : sizeOf p.1.2 < sizeOf p.1 := by
      cases p.1 with
      | mk a b => simp only [Prod.mk.sizeOf_spec]; omega
    simp only [JVal.obj.sizeOf_spec]
    omega
  all_goals simp only [JVal.arr.sizeOf_spec]; omega

/-- Probe: the first `fileType` scalar of the first element of the
`dispositions` sequence of a settings document (used to observe
whether canonicalization reordered the sequence). -/
def firstDispositionFileType (v : JVal) : String :=
  match (getField v "dispositions").bind (fun d => getField d "0") with
  | some e => valChain e ["fileType"]
  | none => ""

/-- The five entity names, each with its trailing semicolon, in the
order amp, lt, gt, quot, apos. -/
def entNames : List (List Char) :=
  ["amp;".data, "lt;".data, "gt;".data, "quot;".data, "apos;".data]

/-- A parsed `fieldPermissions` element with the given `field` value
(as `xml2js` produces it: the value wrapped in a one-element array). -/
def fpElem (s : String) : JVal :=
  JVal.obj [("field", JVal.arr [JVal.str s])]

/-- A parsed `classAccesses` element with the given `apexClass` value. -/
def caElem (s : String) : JVal :=
  JVal.obj [("apexClass", JVal.arr [JVal.str s])]

/-- A parsed `dispositions` element with the given `fileType` value
(as in a `FileUploadAndDownloadSecurity` settings document). -/
def dispElem (s : String) : JVal :=
  JVal.obj [("fileType", JVal.arr [JVal.str s])]

/-- A parsed settings document holding a two-element `dispositions`
sequence with `fileType` values ZIP then AVI, in that input order. -/
def dispDoc : JVal :=
  JVal.obj [("dispositions", JVal.arr [dispElem "ZIP", dispElem "AVI"])]

/-!
## Hash-based change detection (`processFile`, `src/common/helper/string.ts`)

`hashString` in `src/common/helper/string.ts` is
`crypto.createHash("sha256").update(input).digest("hex")`.  The SHA-256
primitive below is modelled from the spec: it is the standard FIPS
180-4 SHA-256 over the UTF-8 bytes of the input, with a lowercase hex
digest, which is exactly what node's `crypto` module computes.  All
round and initial constants are written in decimal.
-/

/-- Truncation to a 32-bit word. -/
def w32 (x : Nat) : Nat := x % 4294967296

/-- Right rotation of the 32-bit word `x` by `k` bits. -/
def rotw (x k : Nat) : Nat := w32 (x * 2 ^ (32 - k) + x / 2 ^ k)

/-- Logical right shift of `x` by `k` bits. -/
def shrw (x k : Nat) : Nat := x / 2 ^ k

/-- The 64 SHA-256 round constants (decimal). -/
def shaK : List Nat :=
  [1116352408, 1899447441, 3049323471, 3921009573, 961987163,
   1508970993, 2453635748, 2870763221, 3624381080, 310598401,
   607225278, 1426881987, 1925078388, 2162078206, 2614888103,
   3248222580, 3835390401, 4022224774, 264347078, 604807628,
   770255983, 1249150122, 1555081692, 1996064986, 2554220882,
   2821834349, 2952996808, 3210313671, 3336571891, 3584528711,
   113926993, 338241895, 666307205, 773529912, 1294757372,
   1396182291, 1695183700, 1986661051, 2177026350, 2456956037,
   2730485921, 2820302411, 3259730800, 3345764771, 3516065817,
   3600352804, 4094571909, 275423344, 430227734, 506948616,
   659060556, 883997877, 958139571, 1322822218, 1537002063,
   1747873779, 1955562222, 2024104815, 2227730452, 2361852424,
   2428436474, 2756734187, 3204031479, 3329325298]

/-- UTF-8 encoding of one character, as byte values. -/
def utf8Enc (c : Char) : List Nat :=
  let n := c.toNat
  if n ≤ 127 then [n]
  else if n ≤ 2047 then [192 + n / 64, 128 + n % 64]
  else if n ≤ 65535 then [224 + n / 4096, 128 + n / 64 % 64, 128 + n % 64]
  else [240 + n / 262144, 128 + n / 4096 % 64, 128 + n / 64 % 64, 128 + n % 64]

/-- The UTF-8 bytes of a string (what `hash.update(input)` feeds in). -/
def utf8Str (s : String) : List Nat :=
  s.data.flatMap utf8Enc

/-- SHA-256 padding: `0x80`, zeros to 56 mod 64, then the bit length as
eight big-endian bytes. -/
def shaPad (m : List Nat) : List Nat :=
  let bitLen := 8 * m.length
  let zeros := (64 - (m.length + 9) % 64) % 64
  m ++ (128 :: List.replicate zeros 0) ++
    (List.range 8).map (fun i => bitLen / 2 ^ (8 * (7 - i)) % 256)

/-- Pack bytes into big-endian 32-bit words. -/
def chunk4 : List Nat → List Nat
  | a :: b :: c :: d :: r => (((a * 256 + b) * 256 + c) * 256 + d) :: chunk4 r
  | _ => []

/-- Cut a word list into 16-word blocks. -/
def block16 : List Nat → List (List Nat)
  | [] => []
  | w :: ws => (w :: ws.take 15) :: block16 (ws.drop 15)
termination_by l => l.length
decreasing_by simp only [List.length_drop, List.length_cons]; omega

/-- Extend a 16-word block to the 64-word message schedule. -/
def shaWords (ws : List Nat) : Nat → List Nat
  | 0 => ws
  | n + 1 =>
    let m := ws.length
    let x1 := ws.getD (m - 2) 0
    let x2 := ws.getD (m - 7) 0
    let x3 := ws.getD (m - 15) 0
    let x4 := ws.getD (m - 16) 0
    shaWords (ws ++ [w32 ((rotw x1 17 ^^^ rotw x1 19 ^^^ shrw x1 10) + x2 +
      (rotw x3 7 ^^^ rotw x3 18 ^^^ shrw x3 3) + x4)]) n

/-- One SHA-256 round on the working variables. -/
def shaStep (st : Nat × Nat × Nat × Nat × Nat × Nat × Nat × Nat) (wk : Nat × Nat) :
    Nat × Nat × Nat × Nat × Nat × Nat × Nat × Nat :=
  let (a, b, c, d, e, f, g, h) := st
  let s1 := rotw e 6 ^^^ rotw e 11 ^^^ rotw e 25
  let ch := (e &&& f) ^^^ ((4294967295 - e) &&& g)
  let t1 := w32 (h + s1 + ch + wk.2 + wk.1)
  let s0 := rotw a 2 ^^^ rotw a 13 ^^^ rotw a 22
  let mj := (a &&& b) ^^^ (a &&& c) ^^^ (b &&& c)
  let t2 := w32 (s0 + mj)
  (w32 (t1 + t2), a, b, c, w32 (d + t1), e, f, g)

/-- Compress one block into the chaining state. -/
def shaBlock (st : Nat × Nat × Nat × Nat × Nat × Nat × Nat × Nat) (ws : List Nat) :
    Nat × Nat × Nat × Nat × Nat × Nat × Nat × Nat :=
  let (a, b, c, d, e, f, g, h) := st
  let (a2, b2, c2, d2, e2, f2, g2, h2) := ((shaWords ws 48).zip shaK).foldl shaStep st
  (w32 (a + a2), w32 (b + b2), w32 (c + c2), w32 (d + d2),
   w32 (e + e2), w32 (f + f2), w32 (g + g2), w32 (h + h2))

/-- One lowercase hexadecimal digit. -/
def hexChar (n : Nat) : Char :=
  Char.ofNat (if n < 10 then n + 48 else n + 87)

/-- The eight lowercase hex characters of a 32-bit word. -/
def hex8 (w : Nat) : List Char :=
  (List.range 8).map (fun i => hexChar (w / 16 ^ (7 - i) % 16))

/-- The lowercase hex SHA-256 digest of a byte list.  The initial state
is the standard initial hash value, in decimal. -/
def shaDigest (bytes : List Nat) : List Char :=
  let (a, b, c, d, e, f, g, h) :=
    (block16 (chunk4 (shaPad bytes))).foldl shaBlock
      (1779033703, 3144134277, 1013904242, 2773480762,
       1359893119, 2600822924, 528734635, 1541459225)
  hex8 a ++ hex8 b ++ hex8 c ++ hex8 d ++ hex8 e ++ hex8 f ++ hex8 g ++ hex8 h

/-- `hashString` from `src/common/helper/string.ts`:
`crypto.createHash("sha256").update(input).digest("hex")`. -/
def hashString (s : String) : String :=
  String.mk (shaDigest (utf8Str s))

/-- The change decision of `processFile` (`sf-metadata-adjuster.ts`):
`originalHash !== sortedHash`, with `originalHash = hashString(xmlContent)`
and `sortedHash = hashString(sortedXml)`; the file is written back
exactly when this is `true`. -/
def wasModified (original canonical : String) : Bool :=
  !(hashString original == hashString canonical)

/-!
## Tree builder models (`buildMetadataXml` and the adjuster `buildXml`)

`xml2js.Builder#buildObject` lives in the `xml2js` package, not in this
repository.  Modelled from the spec: the serializer pretty-prints with a
fixed 4-space indentation, one element per line with proper nesting,
emits the fixed declaration `<?xml version="1.0" encoding="UTF-8"?>`,
serializes empty elements self-closing (`<tag/>`), and its raw output
does not end in a newline.  The post-processing around the serializer —
`restoreXmlEntities`, the self-closing expansion regex
`/<(\w+)([^>]*)\/>/g` and the trailing-newline guard — is translated
from the source of `buildMetadataXml` (xml-helpers) and `buildXml`
(`sf-metadata-adjuster.ts`).
-/

/-- Indentation prefix at nesting depth `n` (4 spaces per level). -/
def indentChars (n : Nat) : List Char := List.replicate (4 * n) ' '

/-- Join pretty-printed chunks with newlines. -/
def joinNL : List (List Char) → List Char
  | [] => []
  | [x] => x
  | x :: y :: r => x ++ ('\n' :: joinNL (y :: r))

/-- The fixed XML declaration line. -/
def xmlDecl : List Char := "<?xml version=\"1.0\" encoding=\"UTF-8\"?>".data

/-- `<name>`. -/
def openTag (name : String) : List Char := '<' :: (name.data ++ ['>'])

/-- `</name>`. -/
def closeTag (name : String) : List Char := '<' :: ('/' :: (name.data ++ ['>']))

/-- `<name/>` (how the serializer spells an empty element). -/
def selfTag (name : String) : List Char := '<' :: (name.data ++ ['/', '>'])

/-- Modelled from the spec: the serializer body for one element.  A
string renders inline; `null`, the empty string and the empty mapping
render self-closing; an array renders one element per item; a mapping
renders its entries as indented children.  The fuel argument only
bounds the recursion depth (`renderDoc` passes a sufficient bound). -/
def renderElem : Nat → Nat → String → JVal → List Char
  | 0, _, _, _ => []
  | f + 1, ind, name, v =>
    match v with
    | .str s =>
      if s.data.isEmpty then indentChars ind ++ selfTag name
      else indentChars ind ++ (openTag name ++ (s.data ++ closeTag name))
    | .null => indentChars ind ++ selfTag name
    | .arr xs => joinNL (xs.map (renderElem f ind name))
    | .obj kvs =>
      if kvs.isEmpty then indentChars ind ++ selfTag name
      else
        (indentChars ind ++ openTag name) ++
          ('\n' :: (joinNL (kvs.map (fun p => renderElem f (ind + 1) p.1 p.2)) ++
            ('\n' :: (indentChars ind ++ closeTag name))))

/-- Trees the serializer model accepts: no `null`-padded fuel exhaustion
and no empty arrays (an empty array produces no element at all in
`xml2js`, which the model keeps out of scope). -/
def renderable : Nat → JVal → Bool
  | 0, _ => false
  | f + 1, v =>
    match v with
    | .str _ => true
    | .null => true
    | .arr xs => !xs.isEmpty && xs.all (renderable f)
    | .obj kvs => kvs.all (fun p => renderable f p.2)

/-- Modelled from the spec: the full serializer output — declaration
line, newline, root element — with no trailing newline.  The fuel
argument bounds the recursion depth; `renderable fuel v` certifies it
is large enough. -/
def renderDoc (fuel : Nat) (rootName : String) (v : JVal) : List Char :=
  xmlDecl ++ ('\n' :: renderElem fuel 0 rootName v)

/-- JavaScript `\w` (word character: letter, digit or underscore). -/
def wChar (c : Char) : Bool := c.isAlphanum || c == '_'

/-- The greedy `[^>]*\/>` tail of the self-closing regex: consume
characters up to the first `>`, requiring the character before it to be
`/`; returns the consumed group and the rest after the `>`. -/
def scanTail : List Char → Option (List Char × List Char)
  | [] => none
  | c :: t =>
    if c = '/' ∧ t.head? = some '>' then some ([], t.tail)
    else if c = '>' then none
    else (scanTail t).map (fun p => (c :: p.1, p.2))

/-- Match the regex `<(\w+)([^>]*)\/>` at the head of the input:
returns the two capture groups and the rest of the input after the
match. -/
def scMatch : List Char → Option (List Char × List Char × List Char)
  | [] => none
  | c :: t =>
    if c = '<' then
      let g1 := t.takeWhile wChar
      if g1.isEmpty then none
      else
        match scanTail (t.dropWhile wChar) with
        | some (g2, rest) => some (g1, g2, rest)
        | none => none
    else none

/-- Global left-to-right replacement of `<(\w+)([^>]*)\/>` by
`<$1$2></$1>`, as in `xmlOutput.replace(/<(\w+)([^>]*)\/>/g,
'<$1$2></$1>')` in `buildMetadataXml`.  The fuel argument (instantiated
with the input length) only bounds the scan. -/
def expandAux : Nat → List Char → List Char
  | 0, s => s
  | _ + 1, [] => []
  | f + 1, c :: t =>
    match scMatch (c :: t) with
    | some (g1, g2, rest) =>
      '<' :: (g1 ++ (g2 ++ ('>' :: ('<' :: ('/' :: (g1 ++ ('>' :: expandAux f rest)))))))
    | none => c :: expandAux f t

/-- The self-closing expansion pass of `buildMetadataXml`. -/
def expandSelfClosing (s : String) : String :=
  String.mk (expandAux s.data.length s.data)

/-- `xmlOutput.endsWith('\n')` (for a single character, the last
character is `'\n'`). -/
def endsWithNL (s : String) : Bool :=
  s.data.getLast? == some '\n'

/-- The trailing-newline guard shared by both builders:
`if (!xmlOutput.endsWith('\n')) xmlOutput += '\n'`. -/
def addFinalNL (s : String) : String :=
  if endsWithNL s then s else s ++ "\n"

/-- `buildXml(obj, ...)` from `sf-metadata-adjuster.ts`: serialize,
restore entities, ensure a trailing newline.  (It has NO self-closing
expansion pass.) -/
def buildXml (fuel : Nat) (v : JVal) (rootName : String) : String :=
  addFinalNL (restoreXmlEntities (String.mk (renderDoc fuel rootName v)))

/-- `buildMetadataXml(obj, originalXml)` from xml-helpers: serialize,
restore entities, expand self-closing elements, ensure a trailing
newline. -/
def buildMetadataXml (fuel : Nat) (v : JVal) (rootName : String) : String :=
  addFinalNL (expandSelfClosing (restoreXmlEntities (String.mk (renderDoc fuel rootName v))))

/-- The document `<Test><selfClosing/></Test>` as parsed by `xml2js`
(the empty element parses to an empty string, wrapped in a one-element
array). -/
def selfTree : JVal := JVal.obj [("selfClosing", JVal.arr [JVal.str ""])]

/-!
## Fueled evaluation twins

`sortXmlElements` and `goodTree` are defined by well-founded recursion
and therefore do not reduce inside the kernel.  The fueled twins below
mirror them case for case (with the `attach` plumbing already folded
away) and are structurally recursive, so concrete documents evaluate by
`rfl`/`decide`; the `_eq` theorems further down prove the twins agree
with the originals whenever the fuel covers the tree size.
-/

def sortXmlElementsF : Nat → JVal → Option String → JVal
  | 0, v, _ => v
  | f + 1, v, parentKey =>
    match v with
    | .null => .null
    | .str s => .str s
    | .arr xs =>
      if parentKey = some "classAccesses" then
        .arr ((sortClassAccesses xs).map (fun i => sortXmlElementsF f i none))
      else if keyTruthy parentKey && headIsObj xs then
        .arr ((sortArrayElements xs (parentKey.getD "")).map
          (fun i => sortXmlElementsF f i none))
      else
        .arr (xs.map (fun i => sortXmlElementsF f i none))
    | .obj kvs =>
      .obj (jsSort (fun p q => cmpStr p.1 q.1)
        (kvs.map (fun kv => (kv.1, sortXmlElementsF f kv.2 (some kv.1)))))

def goodTreeF : Nat → JVal → Option String → Bool
  | 0, _, _ => false
  | f + 1, v, ctx =>
    match v with
    | .str _ => true
    | .null => false
    | .obj kvs =>
      ((kvs.map Prod.fst).Nodup) &&
        kvs.all (fun p => goodTreeF f p.2 (some p.1))
    | .arr xs =>
      if ctx = some "classAccesses" then
        xs.all (fun x => elemStable ["apexClass"] x && goodTreeF f x none)
      else if keyTruthy ctx && headIsObj xs then
        if ctx = some "fieldPermissions" then
          xs.all (fun x => elemStable ["field"] x && goodTreeF f x none)
        else if (ctx.getD "") ∈ sfCtxKeys then
          xs.all (fun x => elemStable sfCands x && goodTreeF f x none)
        else
          decide (xs.length ≤ 1) && xs.all (fun x => goodTreeF f x none)
      else
        xs.all (fun x => goodTreeF f x none)

/-!
## The generic-fallback idempotence counterexample

A sequence under a context key outside the rule table is sorted through
the generic fallback, whose sort key is chosen from the FIRST element's
key order — which canonicalization itself changes by sorting the keys.
`genDoc` exhibits this: the first pass keeps the element order (key
`bName`: "1" < "2"), the second pass swaps it (key `aName` after the
keys were sorted: "9" > "8").
-/

def genElem1 : JVal :=
  JVal.obj [("bName", JVal.arr [JVal.str "1"]), ("aName", JVal.arr [JVal.str "9"])]

def genElem2 : JVal :=
  JVal.obj [("bName", JVal.arr [JVal.str "2"]), ("aName", JVal.arr [JVal.str "8"])]

def genDoc : JVal :=
  JVal.obj [("items", JVal.arr [genElem1, genElem2])]

/-- Probe: the `bName` scalar of the first element of the `items`
sequence. -/
def firstItemB (v : JVal) : String :=
  match getField v "items" with
  | some items =>
    match getField items "0" with
    | some e => valChain e ["bName"]
    | none => ""
  | none => ""

/-!
# Theorems

## Replacement kit for the entity guard
-/

theorem hasPref_iff {p s : List Char} : hasPref p s = true ↔ s.take p.length = p := by
  simp [hasPref]

theorem hasPref_nil_pat (s : List Char) : hasPref [] s = true := by
  simp [hasPref]

theorem hasPref_ne_nil {p : List Char} (hp : p ≠ []) : hasPref p [] = false := by
  cases p with
  | nil => exact absurd rfl hp
  | cons a t => simp [hasPref]

theorem hasPref_cons {h c : Char} {p t : List Char} :
    hasPref (h :: p) (c :: t) = ((c == h) && hasPref p t) := by
  simp only [hasPref, List.length_cons, List.take_succ_cons, List.cons_beq_cons]

theorem hasPref_split {p s : List Char} (hp : hasPref p s = true) :
    s = p ++ s.drop p.length := by
  conv_lhs => rw [← List.take_append_drop p.length s]
  rw [hasPref_iff.mp hp]

theorem hasPref_append_same (p v : List Char) : hasPref p (p ++ v) = true := by
  have : (p ++ v).take p.length = p := List.take_left p v
  simp [hasPref, this]

theorem hasPref_of_append_left {p q s : List Char}
    (h : hasPref (p ++ q) s = true) : hasPref p s = true := by
  rw [hasPref_iff] at h ⊢
  have h2 : (s.take (p.length + q.length)).take p.length = (p ++ q).take p.length := by
    rw [List.length_append] at h
    rw [h]
  rwa [List.take_take, Nat.min_eq_left (Nat.le_add_right _ _), List.take_left] at h2

theorem hasPref_append_ext {p u v : List Char}
    (h : hasPref p (u ++ v) = true) :
    hasPref p u = true ∨ hasPref u p = true := by
  rw [hasPref_iff] at h
  rw [List.take_append_eq_append_take] at h
  by_cases hle : p.length ≤ u.length
  · left
    rw [hasPref_iff]
    have hz : p.length - u.length = 0 := by omega
    rw [hz] at h
    simpa using h
  · right
    rw [hasPref_iff]
    push_neg at hle
    have hu : u.take p.length = u := List.take_of_length_le (Nat.le_of_lt hle)
    rw [hu] at h
    have : p.take u.length = (u ++ v.take (p.length - u.length)).take u.length := by rw [h]
    rw [List.take_left] at this
    exact this

theorem replaceL_nil (p r : List Char) : replaceL p r [] = [] := by
  simp [replaceL]

theorem replaceL_fire {p : List Char} (r : List Char) {s : List Char}
    (hp : p ≠ []) (hpref : hasPref p s = true) :
    replaceL p r s = r ++ replaceL p r (s.drop p.length) := by
  cases s with
  | nil => rw [hasPref_ne_nil hp] at hpref; exact absurd hpref (by simp)
  | cons c t =>
    rw [replaceL]
    rw [if_pos ⟨hp, hpref⟩]
    have hlen : 1 ≤ p.length := by
      cases p with
      | nil => exact absurd rfl hp
      | cons a b => simp
    have : (c :: t).drop p.length = t.drop (p.length - 1) := by
      cases hpl : p.length with
      | zero => omega
      | succ m => simp [List.drop_succ_cons]
    rw [this]

theorem replaceL_skip {p : List Char} (r : List Char) {c : Char} {t : List Char}
    (h : hasPref p (c :: t) = false) :
    replaceL p r (c :: t) = c :: replaceL p r t := by
  rw [replaceL]
  rw [if_neg]
  intro hco
  rw [hco.2] at h
  exact absurd h (by simp)

theorem contSub_cons {p : List Char} {c : Char} {t : List Char} :
    contSub p (c :: t) = (hasPref p (c :: t) || contSub p t) := by
  simp [contSub]

theorem contSub_tail_of_false {p : List Char} {c : Char} {t : List Char}
    (h : contSub p (c :: t) = false) : contSub p t = false := by
  rw [contSub_cons] at h
  exact (Bool.or_eq_false_iff.mp h).2

theorem contSub_hasPref_false {p : List Char} {c : Char} {t : List Char}
    (h : contSub p (c :: t) = false) : hasPref p (c :: t) = false := by
  rw [contSub_cons] at h
  exact (Bool.or_eq_false_iff.mp h).1

theorem contSub_append_right {p u v : List Char}
    (h : contSub p (u ++ v) = false) : contSub p v = false := by
  induction u with
  | nil => exact h
  | cons c u ih => exact ih (contSub_tail_of_false h)

theorem contSub_of_append_pat {p q s : List Char}
    (h : contSub p s = false) : contSub (p ++ q) s = false := by
  induction s with
  | nil =>
    simp only [contSub, hasPref, List.take_nil] at h ⊢
    cases p with
    | nil => simp at h
    | cons a b => simp
  | cons c t ih =>
    rw [contSub_cons] at h ⊢
    rcases Bool.or_eq_false_iff.mp h with ⟨h1, h2⟩
    rw [ih h2]
    suffices hs : hasPref (p ++ q) (c :: t) = false by simp [hs]
    cases hpq : hasPref (p ++ q) (c :: t) with
    | false => rfl
    | true => exact absurd (hasPref_of_append_left hpq) (by simp [h1])

theorem noOccur {p : List Char} (r : List Char) :
    ∀ {s : List Char}, contSub p s = false → replaceL p r s = s := by
  intro s
  induction s with
  | nil => intro _; exact replaceL_nil p r
  | cons c t ih =>
    intro h
    rw [replaceL_skip r (contSub_hasPref_false h), ih (contSub_tail_of_false h)]

theorem fireBlock {p : List Char} (r : List Char) (hp : p ≠ []) (v : List Char) :
    replaceL p r (p ++ v) = r ++ replaceL p r v := by
  rw [replaceL_fire r hp (hasPref_append_same p v), List.drop_left]

theorem skipBlock {p : List Char} (r : List Char) {u : List Char}
    (hcond : ∀ i < u.length, hasPref p (u.drop i) = false ∧ hasPref (u.drop i) p = false)
    (v : List Char) :
    replaceL p r (u ++ v) = u ++ replaceL p r v := by
  induction u with
  | nil => rfl
  | cons c u ih =>
    have h0 := hcond 0 (by simp)
    simp only [List.drop_zero] at h0
    have hfalse : hasPref p (c :: (u ++ v)) = false := by
      cases hx : hasPref p (c :: (u ++ v)) with
      | false => rfl
      | true =>
        have hx2 : hasPref p ((c :: u) ++ v) = true := by
          rw [List.cons_append]; exact hx
        rcases hasPref_append_ext hx2 with h | h
        · rw [h0.1] at h; exact absurd h (by simp)
        · rw [h0.2] at h; exact absurd h (by simp)
    have hstep : ∀ i, i < u.length →
        hasPref p (u.drop i) = false ∧ hasPref (u.drop i) p = false := fun i hi => by
      have := hcond (i + 1) (by simp only [List.length_cons]; omega)
      simpa using this
    calc replaceL p r ((c :: u) ++ v) = replaceL p r (c :: (u ++ v)) := by
          rw [List.cons_append]
      _ = c :: replaceL p r (u ++ v) := replaceL_skip r hfalse
      _ = c :: (u ++ replaceL p r v) := by rw [ih hstep]
      _ = (c :: u) ++ replaceL p r v := by rw [List.cons_append]

theorem tails_tail_mem {q : List Char} {c : Char} {l : List Char}
    (h : (c :: l) ∈ q.tails) : l ∈ q.tails := by
  rw [List.mem_tails] at h ⊢
  exact List.IsSuffix.trans ⟨[c], rfl⟩ h

theorem prefReflAux {p1 r1 q : List Char} (hp1 : p1 ≠ [])
    (H : ∀ q2 ∈ q.tails, q2 ≠ [] → hasPref q2 r1 = false ∧ hasPref r1 q2 = false) :
    ∀ (n : Nat) (t : List Char), t.length ≤ n → ∀ q2 ∈ q.tails,
      hasPref q2 (replaceL p1 r1 t) = true → hasPref q2 t = true := by
  intro n
  induction n with
  | zero =>
    intro t ht q2 hq2 hpref
    have : t = [] := List.length_eq_zero.mp (Nat.le_zero.mp ht)
    subst this
    rwa [replaceL_nil] at hpref
  | succ m ih =>
    intro t ht q2 hq2 hpref
    cases hq : q2 with
    | nil => exact hasPref_nil_pat t
    | cons c2 q2t =>
      subst hq
      cases t with
      | nil => rwa [replaceL_nil] at hpref
      | cons c t' =>
        by_cases hfire : hasPref p1 (c :: t') = true
        · rw [replaceL_fire r1 hp1 hfire] at hpref
          rcases hasPref_append_ext hpref with h | h
          · exact absurd h (by simp [(H _ hq2 (by simp)).1])
          · exact absurd h (by simp [(H _ hq2 (by simp)).2])
        · rw [replaceL_skip r1 (Bool.not_eq_true _ ▸ hfire)] at hpref
          rw [hasPref_cons] at hpref ⊢
          simp only [Bool.and_eq_true] at hpref
          obtain ⟨hc, hrest⟩ := hpref
          rw [hc, Bool.true_and]
          exact ih t' (by simp only [List.length_cons] at ht; omega) q2t
            (tails_tail_mem hq2) hrest

theorem prefRefl {p1 r1 q : List Char} (hp1 : p1 ≠ [])
    (H : ∀ q2 ∈ q.tails, q2 ≠ [] → hasPref q2 r1 = false ∧ hasPref r1 q2 = false)
    {t : List Char} (h : hasPref q (replaceL p1 r1 t) = true) : hasPref q t = true :=
  prefReflAux hp1 H t.length t (Nat.le_refl _) q (by
    rw [List.mem_tails]) h

theorem maskL_nil : maskL [] = [] := by
  simp [maskL, replaceL_nil]

theorem unmaskL_nil : unmaskL [] = [] := by
  simp [unmaskL, replaceL_nil]

set_option maxRecDepth 8000 in
theorem maskL_amp (t : List Char) : maskL (eAmp ++ t) = mAmp ++ maskL t := by
  simp only [maskL]
  rw [skipBlock (p := eApos) mApos (u := eAmp) (by decide) t]
  rw [skipBlock (p := eQuot) mQuot (u := eAmp) (by decide)]
  rw [fireBlock (p := eAmp) mAmp (by decide)]
  rw [skipBlock (p := eLt) mLt (u := mAmp) (by decide)]
  rw [skipBlock (p := eGt) mGt (u := mAmp) (by decide)]

set_option maxRecDepth 8000 in
theorem maskL_lt (t : List Char) : maskL (eLt ++ t) = mLt ++ maskL t := by
  simp only [maskL]
  rw [skipBlock (p := eApos) mApos (u := eLt) (by decide) t]
  rw [skipBlock (p := eQuot) mQuot (u := eLt) (by decide)]
  rw [skipBlock (p := eAmp) mAmp (u := eLt) (by decide)]
  rw [fireBlock (p := eLt) mLt (by decide)]
  rw [skipBlock (p := eGt) mGt (u := mLt) (by decide)]

set_option maxRecDepth 8000 in
theorem maskL_gt (t : List Char) : maskL (eGt ++ t) = mGt ++ maskL t := by
  simp only [maskL]
  rw [skipBlock (p := eApos) mApos (u := eGt) (by decide) t]
  rw [skipBlock (p := eQuot) mQuot (u := eGt) (by decide)]
  rw [skipBlock (p := eAmp) mAmp (u := eGt) (by decide)]
  rw [skipBlock (p := eLt) mLt (u := eGt) (by decide)]
  rw [fireBlock (p := eGt) mGt (by decide)]

set_option maxRecDepth 8000 in
theorem maskL_quot (t : List Char) : maskL (eQuot ++ t) = mQuot ++ maskL t := by
  simp only [maskL]
  rw [skipBlock (p := eApos) mApos (u := eQuot) (by decide) t]
  rw [fireBlock (p := eQuot) mQuot (by decide)]
  rw [skipBlock (p := eAmp) mAmp (u := mQuot) (by decide)]
  rw [skipBlock (p := eLt) mLt (u := mQuot) (by decide)]
  rw [skipBlock (p := eGt) mGt (u := mQuot) (by decide)]

set_option maxRecDepth 8000 in
theorem maskL_apos (t : List Char) : maskL (eApos ++ t) = mApos ++ maskL t := by
  simp only [maskL]
  rw [fireBlock (p := eApos) mApos (by decide) t]
  rw [skipBlock (p := eQuot) mQuot (u := mApos) (by decide)]
  rw [skipBlock (p := eAmp) mAmp (u := mApos) (by decide)]
  rw [skipBlock (p := eLt) mLt (u := mApos) (by decide)]
  rw [skipBlock (p := eGt) mGt (u := mApos) (by decide)]

set_option maxRecDepth 8000 in
theorem unmaskL_amp (z : List Char) : unmaskL (mAmp ++ z) = eAmp ++ unmaskL z := by
  simp only [unmaskL]
  rw [fireBlock (p := mAmp) eAmp (by decide) z]
  rw [skipBlock (p := mLt) eLt (u := eAmp) (by decide)]
  rw [skipBlock (p := mGt) eGt (u := eAmp) (by decide)]
  rw [skipBlock (p := mQuot) eQuot (u := eAmp) (by decide)]
  rw [skipBlock (p := mApos) eApos (u := eAmp) (by decide)]

set_option maxRecDepth 8000 in
theorem unmaskL_lt (z : List Char) : unmaskL (mLt ++ z) = eLt ++ unmaskL z := by
  simp only [unmaskL]
  rw [skipBlock (p := mAmp) eAmp (u := mLt) (by decide) z]
  rw [fireBlock (p := mLt) eLt (by decide)]
  rw [skipBlock (p := mGt) eGt (u := eLt) (by decide)]
  rw [skipBlock (p := mQuot) eQuot (u := eLt) (by decide)]
  rw [skipBlock (p := mApos) eApos (u := eLt) (by decide)]

set_option maxRecDepth 8000 in
theorem unmaskL_gt (z : List Char) : unmaskL (mGt ++ z) = eGt ++ unmaskL z := by
  simp only [unmaskL]
  rw [skipBlock (p := mAmp) eAmp (u := mGt) (by decide) z]
  rw [skipBlock (p := mLt) eLt (u := mGt) (by decide)]
  rw [fireBlock (p := mGt) eGt (by decide)]
  rw [skipBlock (p := mQuot) eQuot (u := eGt) (by decide)]
  rw [skipBlock (p := mApos) eApos (u := eGt) (by decide)]

set_option maxRecDepth 8000 in
theorem unmaskL_quot (z : List Char) : unmaskL (mQuot ++ z) = eQuot ++ unmaskL z := by
  simp only [unmaskL]
  rw [skipBlock (p := mAmp) eAmp (u := mQuot) (by decide) z]
  rw [skipBlock (p := mLt) eLt (u := mQuot) (by decide)]
  rw [skipBlock (p := mGt) eGt (u := mQuot) (by decide)]
  rw [fireBlock (p := mQuot) eQuot (by decide)]
  rw [skipBlock (p := mApos) eApos (u := eQuot) (by decide)]

set_option maxRecDepth 8000 in
theorem unmaskL_apos (z : List Char) : unmaskL (mApos ++ z) = eApos ++ unmaskL z := by
  simp only [unmaskL]
  rw [skipBlock (p := mAmp) eAmp (u := mApos) (by decide) z]
  rw [skipBlock (p := mLt) eLt (u := mApos) (by decide)]
  rw [skipBlock (p := mGt) eGt (u := mApos) (by decide)]
  rw [skipBlock (p := mQuot) eQuot (u := mApos) (by decide)]
  rw [fireBlock (p := mApos) eApos (by decide)]

set_option maxRecDepth 8000 in
theorem maskL_chr {c : Char} {t : List Char}
    (hApos : hasPref eApos (c :: t) = false)
    (hQuot : hasPref eQuot (c :: t) = false)
    (hAmp : hasPref eAmp (c :: t) = false)
    (hLt : hasPref eLt (c :: t) = false)
    (hGt : hasPref eGt (c :: t) = false) :
    maskL (c :: t) = c :: maskL t := by
  simp only [maskL]
  rw [replaceL_skip mApos hApos]
  have s1 : c :: replaceL eApos mApos t = replaceL eApos mApos (c :: t) :=
    (replaceL_skip mApos hApos).symm
  have hQ : hasPref eQuot (c :: replaceL eApos mApos t) = false := by
    cases hx : hasPref eQuot (c :: replaceL eApos mApos t) with
    | false => rfl
    | true =>
      rw [s1] at hx
      exact absurd (prefRefl (by decide) (by decide) hx) (by simp [hQuot])
  rw [replaceL_skip mQuot hQ]
  have s2 : c :: replaceL eQuot mQuot (replaceL eApos mApos t) =
      replaceL eQuot mQuot (replaceL eApos mApos (c :: t)) := by
    rw [← s1, replaceL_skip mQuot hQ]
  have hA : hasPref eAmp (c :: replaceL eQuot mQuot (replaceL eApos mApos t)) = false := by
    cases hx : hasPref eAmp (c :: replaceL eQuot mQuot (replaceL eApos mApos t)) with
    | false => rfl
    | true =>
      rw [s2] at hx
      exact absurd (prefRefl (by decide) (by decide)
        (prefRefl (by decide) (by decide) hx)) (by simp [hAmp])
  rw [replaceL_skip mAmp hA]
  have s3 : c :: replaceL eAmp mAmp (replaceL eQuot mQuot (replaceL eApos mApos t)) =
      replaceL eAmp mAmp (replaceL eQuot mQuot (replaceL eApos mApos (c :: t))) := by
    rw [← s2, replaceL_skip mAmp hA]
  have hL : hasPref eLt (c :: replaceL eAmp mAmp (replaceL eQuot mQuot
      (replaceL eApos mApos t))) = false := by
    cases hx : hasPref eLt (c :: replaceL eAmp mAmp (replaceL eQuot mQuot
        (replaceL eApos mApos t))) with
    | false => rfl
    | true =>
      rw [s3] at hx
      exact absurd (prefRefl (by decide) (by decide) (prefRefl (by decide) (by decide)
        (prefRefl (by decide) (by decide) hx))) (by simp [hLt])
  rw [replaceL_skip mLt hL]
  have s4 : c :: replaceL eLt mLt (replaceL eAmp mAmp (replaceL eQuot mQuot
      (replaceL eApos mApos t))) =
      replaceL eLt mLt (replaceL eAmp mAmp (replaceL eQuot mQuot
      (replaceL eApos mApos (c :: t)))) := by
    rw [← s3, replaceL_skip mLt hL]
  have hG : hasPref eGt (c :: replaceL eLt mLt (replaceL eAmp mAmp (replaceL eQuot mQuot
      (replaceL eApos mApos t)))) = false := by
    cases hx : hasPref eGt (c :: replaceL eLt mLt (replaceL eAmp mAmp (replaceL eQuot mQuot
        (replaceL eApos mApos t)))) with
    | false => rfl
    | true =>
      rw [s4] at hx
      exact absurd (prefRefl (by decide) (by decide) (prefRefl (by decide) (by decide)
        (prefRefl (by decide) (by decide) (prefRefl (by decide) (by decide) hx))))
        (by simp [hGt])
  rw [replaceL_skip mGt hG]

set_option maxRecDepth 8000 in
theorem unmaskL_chr {c : Char} {z : List Char}
    (hAmp : hasPref mAmp (c :: z) = false)
    (hLt : hasPref mLt (c :: z) = false)
    (hGt : hasPref mGt (c :: z) = false)
    (hQuot : hasPref mQuot (c :: z) = false)
    (hApos : hasPref mApos (c :: z) = false) :
    unmaskL (c :: z) = c :: unmaskL z := by
  simp only [unmaskL]
  rw [replaceL_skip eAmp hAmp]
  have s1 : c :: replaceL mAmp eAmp z = replaceL mAmp eAmp (c :: z) :=
    (replaceL_skip eAmp hAmp).symm
  have hL : hasPref mLt (c :: replaceL mAmp eAmp z) = false := by
    cases hx : hasPref mLt (c :: replaceL mAmp eAmp z) with
    | false => rfl
    | true =>
      rw [s1] at hx
      exact absurd (prefRefl (by decide) (by decide) hx) (by simp [hLt])
  rw [replaceL_skip eLt hL]
  have s2 : c :: replaceL mLt eLt (replaceL mAmp eAmp z) =
      replaceL mLt eLt (replaceL mAmp eAmp (c :: z)) := by
    rw [← s1, replaceL_skip eLt hL]
  have hG : hasPref mGt (c :: replaceL mLt eLt (replaceL mAmp eAmp z)) = false := by
    cases hx : hasPref mGt (c :: replaceL mLt eLt (replaceL mAmp eAmp z)) with
    | false => rfl
    | true =>
      rw [s2] at hx
      exact absurd (prefRefl (by decide) (by decide)
        (prefRefl (by decide) (by decide) hx)) (by simp [hGt])
  rw [replaceL_skip eGt hG]
  have s3 : c :: replaceL mGt eGt (replaceL mLt eLt (replaceL mAmp eAmp z)) =
      replaceL mGt eGt (replaceL mLt eLt (replaceL mAmp eAmp (c :: z))) := by
    rw [← s2, replaceL_skip eGt hG]
  have hQ : hasPref mQuot (c :: replaceL mGt eGt (replaceL mLt eLt
      (replaceL mAmp eAmp z))) = false := by
    cases hx : hasPref mQuot (c :: replaceL mGt eGt (replaceL mLt eLt
        (replaceL mAmp eAmp z))) with
    | false => rfl
    | true =>
      rw [s3] at hx
      exact absurd (prefRefl (by decide) (by decide) (prefRefl (by decide) (by decide)
        (prefRefl (by decide) (by decide) hx))) (by simp [hQuot])
  rw [replaceL_skip eQuot hQ]
  have s4 : c :: replaceL mQuot eQuot (replaceL mGt eGt (replaceL mLt eLt
      (replaceL mAmp eAmp z))) =
      replaceL mQuot eQuot (replaceL mGt eGt (replaceL mLt eLt
      (replaceL mAmp eAmp (c :: z)))) := by
    rw [← s3, replaceL_skip eQuot hQ]
  have hP : hasPref mApos (c :: replaceL mQuot eQuot (replaceL mGt eGt (replaceL mLt eLt
      (replaceL mAmp eAmp z)))) = false := by
    cases hx : hasPref mApos (c :: replaceL mQuot eQuot (replaceL mGt eGt (replaceL mLt eLt
        (replaceL mAmp eAmp z)))) with
    | false => rfl
    | true =>
      rw [s4] at hx
      exact absurd (prefRefl (by decide) (by decide) (prefRefl (by decide) (by decide)
        (prefRefl (by decide) (by decide) (prefRefl (by decide) (by decide) hx))))
        (by simp [hApos])
  rw [replaceL_skip eApos hP]

theorem underscoreHeadFalse {r : List Char} (rne : r ≠ []) (hr : ∀ c ∈ r, c ≠ '_')
    (w : List Char) :
    hasPref r ('_' :: w) = false ∧ hasPref ('_' :: w) r = false := by
  cases r with
  | nil => exact absurd rfl rne
  | cons rc rt =>
    have hb : (rc == '_') = false := beq_eq_false_iff_ne.mpr (hr rc (by simp))
    have hb2 : ('_' == rc) = false :=
      beq_eq_false_iff_ne.mpr (fun h => hr rc (by simp) h.symm)
    constructor
    · rw [hasPref_cons, hb2, Bool.false_and]
    · rw [hasPref_cons, hb, Bool.false_and]

theorem entNames_facts : ∀ nm ∈ entNames, nm ≠ [] ∧ ∀ c ∈ nm, c ≠ '_' := by decide

set_option maxRecDepth 8000 in
theorem markTailDecide : ∀ j < 20, 1 ≤ j → ∀ nm ∈ entNames, ∀ mm ∈ entNames,
    hasPref (entMarker.drop j ++ nm) (entMarker ++ mm) = false ∧
    hasPref (entMarker ++ mm) (entMarker.drop j ++ nm) = false := by decide

theorem nameRefl : ∀ (n : Nat) (t r : List Char), t.length ≤ n → r ≠ [] →
    (∀ c ∈ r, c ≠ '_') → hasPref r (maskL t) = true → hasPref r t = true := by
  intro n
  induction n with
  | zero =>
    intro t r ht hrne hr hpref
    have : t = [] := List.length_eq_zero.mp (Nat.le_zero.mp ht)
    subst this
    rwa [maskL_nil] at hpref
  | succ m ih =>
    intro t r ht hrne hr hpref
    have hent : ∀ (e nm : List Char), hasPref e t = true →
        (∀ v, maskL (e ++ v) = (entMarker ++ nm) ++ maskL v) → False := by
      intro e nm he hmask
      have hsplit := hasPref_split he
      rw [hsplit, hmask, List.append_assoc] at hpref
      rw [show entMarker = '_' :: "__ENTITY_MARKER___".data from rfl] at hpref
      rcases hasPref_append_ext hpref with hx | hx
      · rw [(underscoreHeadFalse hrne hr _).1] at hx
        exact absurd hx (by simp)
      · rw [(underscoreHeadFalse hrne hr _).2] at hx
        exact absurd hx (by simp)
    by_cases hA : hasPref eAmp t = true
    · exact (hent eAmp ("amp;".data) hA (fun v => maskL_amp v)).elim
    by_cases hL : hasPref eLt t = true
    · exact (hent eLt ("lt;".data) hL (fun v => maskL_lt v)).elim
    by_cases hG : hasPref eGt t = true
    · exact (hent eGt ("gt;".data) hG (fun v => maskL_gt v)).elim
    by_cases hQ : hasPref eQuot t = true
    · exact (hent eQuot ("quot;".data) hQ (fun v => maskL_quot v)).elim
    by_cases hP : hasPref eApos t = true
    · exact (hent eApos ("apos;".data) hP (fun v => maskL_apos v)).elim
    cases t with
    | nil => rwa [maskL_nil] at hpref
    | cons c t2 =>
      rw [maskL_chr (Bool.not_eq_true _ ▸ hP) (Bool.not_eq_true _ ▸ hQ)
        (Bool.not_eq_true _ ▸ hA) (Bool.not_eq_true _ ▸ hL)
        (Bool.not_eq_true _ ▸ hG)] at hpref
      cases r with
      | nil => exact absurd rfl hrne
      | cons rc rt =>
        rw [hasPref_cons] at hpref ⊢
        simp only [Bool.and_eq_true] at hpref
        obtain ⟨hc, hrest⟩ := hpref
        rw [hc, Bool.true_and]
        cases rt with
        | nil => exact hasPref_nil_pat t2
        | cons a b =>
          exact ih t2 (a :: b) (by simp only [List.length_cons] at ht; omega)
            (by simp) (fun x hx => hr x (List.mem_cons_of_mem rc hx)) hrest

theorem markTailRefl : ∀ (n : Nat) (t : List Char) (j : Nat) (nm : List Char),
    t.length ≤ n → 1 ≤ j → j ≤ 19 → nm ∈ entNames →
    hasPref (entMarker.drop j ++ nm) (maskL t) = true →
    hasPref (entMarker.drop j ++ nm) t = true := by
  intro n
  induction n with
  | zero =>
    intro t j nm ht hj1 hj2 hnm hpref
    have : t = [] := List.length_eq_zero.mp (Nat.le_zero.mp ht)
    subst this
    rwa [maskL_nil] at hpref
  | succ m ih =>
    intro t j nm ht hj1 hj2 hnm hpref
    by_cases hj19 : j = 19
    · subst hj19
      rw [show entMarker.drop 19 = [] from by decide, List.nil_append] at hpref ⊢
      exact nameRefl (m + 1) t nm ht (entNames_facts nm hnm).1
        (entNames_facts nm hnm).2 hpref
    · have hj18 : j ≤ 18 := by omega
      have hent : ∀ (e mm : List Char), mm ∈ entNames → hasPref e t = true →
          (∀ v, maskL (e ++ v) = (entMarker ++ mm) ++ maskL v) → False := by
        intro e mm hmm he hmask
        have hsplit := hasPref_split he
        rw [hsplit, hmask] at hpref
        rcases hasPref_append_ext hpref with hx | hx
        · rw [(markTailDecide j (by omega) hj1 nm hnm mm hmm).1] at hx
          exact absurd hx (by simp)
        · rw [(markTailDecide j (by omega) hj1 nm hnm mm hmm).2] at hx
          exact absurd hx (by simp)
      by_cases hA : hasPref eAmp t = true
      · exact (hent eAmp ("amp;".data) (by decide) hA (fun v => maskL_amp v)).elim
      by_cases hL : hasPref eLt t = true
      · exact (hent eLt ("lt;".data) (by decide) hL (fun v => maskL_lt v)).elim
      by_cases hG : hasPref eGt t = true
      · exact (hent eGt ("gt;".data) (by decide) hG (fun v => maskL_gt v)).elim
      by_cases hQ : hasPref eQuot t = true
      · exact (hent eQuot ("quot;".data) (by decide) hQ (fun v => maskL_quot v)).elim
      by_cases hP : hasPref eApos t = true
      · exact (hent eApos ("apos;".data) (by decide) hP (fun v => maskL_apos v)).elim
      cases t with
      | nil => rwa [maskL_nil] at hpref
      | cons c t2 =>
        rw [maskL_chr (Bool.not_eq_true _ ▸ hP) (Bool.not_eq_true _ ▸ hQ)
          (Bool.not_eq_true _ ▸ hA) (Bool.not_eq_true _ ▸ hL)
          (Bool.not_eq_true _ ▸ hG)] at hpref
        obtain ⟨dh, dt, hd⟩ : ∃ h l, entMarker.drop j = h :: l := by
          cases hdj : entMarker.drop j with
          | nil =>
            have : entMarker.length - j = 0 := by
              rw [← List.length_drop, hdj]; rfl
            have : (19 : Nat) - j = 0 := by
              rwa [show entMarker.length = 19 from by decide] at this
            omega
          | cons a b => exact ⟨a, b, rfl⟩
        have hdt : dt = entMarker.drop (j + 1) := by
          have h5 := List.tail_drop entMarker j
          rw [hd] at h5
          simp only [List.tail_cons] at h5
          exact h5
        rw [hd] at hpref ⊢
        rw [List.cons_append, hasPref_cons] at hpref ⊢
        simp only [Bool.and_eq_true] at hpref
        obtain ⟨hc, hrest⟩ := hpref
        rw [hc, Bool.true_and]
        rw [hdt] at hrest ⊢
        exact ih t2 (j + 1) nm (by simp only [List.length_cons] at ht; omega)
          (by omega) (by omega) hnm hrest

theorem maskUnmaskRound : ∀ (n : Nat) (t : List Char), t.length ≤ n →
    contSub entMarker t = false → unmaskL (maskL t) = t := by
  intro n
  induction n with
  | zero =>
    intro t ht hfree
    have : t = [] := List.length_eq_zero.mp (Nat.le_zero.mp ht)
    subst this
    rw [maskL_nil, unmaskL_nil]
  | succ m ih =>
    intro t ht hfree
    have hent : ∀ (e nm : List Char), hasPref e t = true → 4 ≤ e.length →
        (∀ v, maskL (e ++ v) = (entMarker ++ nm) ++ maskL v) →
        (∀ v, unmaskL ((entMarker ++ nm) ++ v) = e ++ unmaskL v) →
        unmaskL (maskL t) = t := by
      intro e nm he hlen hmask hunmask
      have hsplit := hasPref_split he
      rw [hsplit, hmask, hunmask]
      have hdlen : (t.drop e.length).length ≤ m := by
        rw [List.length_drop]
        have := List.length_pos.mpr (show t ≠ [] by
          intro habs
          rw [habs, hasPref_ne_nil (show e ≠ [] by
            intro h2; rw [h2] at hlen; simp at hlen)] at he
          exact absurd he (by simp))
        omega
      have hdfree : contSub entMarker (t.drop e.length) = false := by
        have : contSub entMarker (e ++ t.drop e.length) = false := by
          rwa [← hsplit]
        exact contSub_append_right this
      rw [ih (t.drop e.length) hdlen hdfree]
  -- the five entity-headed cases, then the character case
    by_cases hA : hasPref eAmp t = true
    · exact hent eAmp ("amp;".data) hA (by decide)
        (fun v => maskL_amp v) (fun v => unmaskL_amp v)
    by_cases hL : hasPref eLt t = true
    · exact hent eLt ("lt;".data) hL (by decide)
        (fun v => maskL_lt v) (fun v => unmaskL_lt v)
    by_cases hG : hasPref eGt t = true
    · exact hent eGt ("gt;".data) hG (by decide)
        (fun v => maskL_gt v) (fun v => unmaskL_gt v)
    by_cases hQ : hasPref eQuot t = true
    · exact hent eQuot ("quot;".data) hQ (by decide)
        (fun v => maskL_quot v) (fun v => unmaskL_quot v)
    by_cases hP : hasPref eApos t = true
    · exact hent eApos ("apos;".data) hP (by decide)
        (fun v => maskL_apos v) (fun v => unmaskL_apos v)
    cases t with
    | nil => rw [maskL_nil, unmaskL_nil]
    | cons c t2 =>
      rw [maskL_chr (Bool.not_eq_true _ ▸ hP) (Bool.not_eq_true _ ▸ hQ)
        (Bool.not_eq_true _ ▸ hA) (Bool.not_eq_true _ ▸ hL)
        (Bool.not_eq_true _ ▸ hG)]
      have hmk : ∀ nm ∈ entNames, hasPref (entMarker ++ nm) (c :: maskL t2) = false := by
        intro nm hnm
        cases hx : hasPref (entMarker ++ nm) (c :: maskL t2) with
        | false => rfl
        | true =>
          rw [show entMarker ++ nm = '_' :: (entMarker.drop 1 ++ nm) from by
            rw [show entMarker = '_' :: entMarker.drop 1 from by decide]; rfl] at hx
          rw [hasPref_cons] at hx
          simp only [Bool.and_eq_true] at hx
          obtain ⟨hc, hrest⟩ := hx
          have h2 := markTailRefl t2.length t2 1 nm (Nat.le_refl _) (by omega)
            (by omega) hnm hrest
          have h3 : hasPref (entMarker.drop 1) t2 = true :=
            hasPref_of_append_left h2
          have h4 : hasPref entMarker (c :: t2) = true := by
            rw [show entMarker = '_' :: entMarker.drop 1 from by decide, hasPref_cons]
            rw [hc, h3]
            rfl
          rw [contSub_cons, h4] at hfree
          exact absurd hfree (by simp)
      rw [unmaskL_chr (hmk ("amp;".data) (by decide)) (hmk ("lt;".data) (by decide))
        (hmk ("gt;".data) (by decide)) (hmk ("quot;".data) (by decide))
        (hmk ("apos;".data) (by decide))]
      rw [ih t2 (by simp only [List.length_cons] at ht; omega)
        (contSub_tail_of_false hfree)]

/-!
## Claim theorems for the entity guard
-/

/-- C3. Entity-guard round trip: for every string `x` with no
occurrence of the marker token `___ENTITY_MARKER___` (in particular
for every string built from arbitrary text and any combination, in any
order, of the five predefined XML entity references `&amp;`, `&lt;`,
`&gt;`, `&quot;`, `&apos;`),
`restoreXmlEntities(prefixXmlEntities(x)) == x`. -/
theorem claim_C3_entity_roundtrip (x : String) (hfree : markerFree x) :
    restoreXmlEntities (prefixXmlEntities x) = x := by
  have h : unmaskL (maskL x.data) = x.data :=
    maskUnmaskRound x.data.length x.data (Nat.le_refl _) hfree
  show String.mk (unmaskL (String.mk (maskL x.data)).data) = x
  rw [show (String.mk (maskL x.data)).data = maskL x.data from rfl, h]

/-- Witness for C3 at a concrete input containing all five entities. -/
theorem claim_C3_entity_roundtrip_witness :
    markerFree "It&apos;s &quot;A &amp; B&quot; &lt;tag&gt;" ∧
    restoreXmlEntities (prefixXmlEntities "It&apos;s &quot;A &amp; B&quot; &lt;tag&gt;") =
      "It&apos;s &quot;A &amp; B&quot; &lt;tag&gt;" :=
  ⟨by decide, claim_C3_entity_roundtrip _ (by decide)⟩

/-- C10. The unmask operation is the identity on marker-free text:
for every string with no occurrence of `___ENTITY_MARKER___`,
`restoreXmlEntities` returns it unchanged, so unmasking never-masked
text (or unmasking twice) is safe. -/
theorem claim_C10_restore_id (x : String) (hfree : markerFree x) :
    restoreXmlEntities x = x := by
  have base : contSub entMarker x.data = false := hfree
  have h1 : replaceL mAmp eAmp x.data = x.data :=
    noOccur eAmp (contSub_of_append_pat base)
  have h2 : replaceL mLt eLt x.data = x.data :=
    noOccur eLt (contSub_of_append_pat base)
  have h3 : replaceL mGt eGt x.data = x.data :=
    noOccur eGt (contSub_of_append_pat base)
  have h4 : replaceL mQuot eQuot x.data = x.data :=
    noOccur eQuot (contSub_of_append_pat base)
  have h5 : replaceL mApos eApos x.data = x.data :=
    noOccur eApos (contSub_of_append_pat base)
  show String.mk (unmaskL x.data) = x
  rw [unmaskL, h1, h2, h3, h4, h5]

/-- Witness for C10: unmasking text that was never masked returns it
unchanged. -/
theorem claim_C10_restore_id_witness :
    markerFree "Fish &amp; Chips __ENTITY plain" ∧
    restoreXmlEntities "Fish &amp; Chips __ENTITY plain" =
      "Fish &amp; Chips __ENTITY plain" :=
  ⟨by decide, claim_C10_restore_id _ (by decide)⟩

/-!
## Stable-sort theory for the comparator-based sorts
-/

theorem ltB_iff_lex : ∀ (l1 l2 : List Char),
    ltB l1 l2 = true ↔ List.Lex (· < ·) l1 l2 := by
  intro l1
  induction l1 with
  | nil =>
    intro l2
    cases l2 with
    | nil => exact iff_of_false (by simp [ltB]) (by intro h; cases h)
    | cons b bs => exact iff_of_true (by simp [ltB]) List.Lex.nil
  | cons a as ih =>
    intro l2
    cases l2 with
    | nil => exact iff_of_false (by simp [ltB]) (by intro h; cases h)
    | cons b bs =>
      by_cases hab : a < b
      · refine iff_of_true ?_ (List.Lex.rel hab)
        simp [ltB, hab]
      · by_cases hba : b < a
        · refine iff_of_false ?_ ?_
          · simp [ltB, hab, hba]
          · intro h
            cases h with
            | cons h2 => exact absurd hba (lt_irrefl a)
            | rel h2 => exact absurd h2 hab
        · have heq : a = b := le_antisymm (le_of_not_lt hba) (le_of_not_lt hab)
          subst heq
          rw [show ltB (a :: as) (a :: bs) = ltB as bs from by simp [ltB]]
          rw [ih bs]
          constructor
          · exact fun h => List.Lex.cons h
          · intro h
            cases h with
            | cons h2 => exact h2
            | rel h2 => exact absurd h2 (lt_irrefl a)

theorem strLtB_iff (a b : String) : strLtB a b = true ↔ a < b := by
  rw [String.lt_iff_toList_lt]
  exact ltB_iff_lex a.data b.data

theorem strLtB_iff_false (a b : String) : strLtB a b = false ↔ ¬ a < b := by
  rw [← strLtB_iff]
  cases strLtB a b <;> simp

theorem cmpStr_gt_iff (a b : String) :
    (cmpStr a b == Ordering.gt) = true ↔ b < a := by
  unfold cmpStr
  split_ifs with h1 h2
  · exact iff_of_false (by decide)
      (fun h => lt_asymm ((strLtB_iff a b).mp h1) h)
  · exact iff_of_true (by decide) ((strLtB_iff b a).mp h2)
  · exact iff_of_false (by decide)
      (fun h => absurd ((strLtB_iff b a).mpr h) (by simp [h2]))

theorem cmpStr_not_gt {a b : String} (h : ¬ b < a) :
    (cmpStr a b == Ordering.gt) = false := by
  cases hx : (cmpStr a b == Ordering.gt) with
  | false => rfl
  | true => exact absurd ((cmpStr_gt_iff a b).mp hx) h

theorem insertRev_perm {α : Type} (g : α → Bool) (x : α) (l : List α) :
    (insertRevJS g x l).Perm (x :: l) := by
  induction l with
  | nil => simp [insertRevJS]
  | cons y ys ih =>
    by_cases hg : g y = true
    · rw [insertRevJS, if_pos hg]
      exact (ih.cons y).trans (List.Perm.swap x y ys)
    · rw [insertRevJS, if_neg hg]

theorem jsSortAux_perm {α : Type} (c : α → α → Ordering) :
    ∀ (l acc : List α), (jsSortAux c acc l).Perm (acc ++ l) := by
  intro l
  induction l with
  | nil => intro acc; simp [jsSortAux]
  | cons x xs ih =>
    intro acc
    rw [jsSortAux]
    refine (ih _).trans ?_
    have h1 : (insertRevJS (fun y => c y x == Ordering.gt) x acc ++ xs).Perm
        ((x :: acc) ++ xs) :=
      (insertRev_perm _ x acc).append_right xs
    refine h1.trans ?_
    simp only [List.cons_append]
    exact (List.perm_middle).symm

theorem jsSort_perm {α : Type} (c : α → α → Ordering) (l : List α) :
    (jsSort c l).Perm l := by
  unfold jsSort
  exact (List.reverse_perm _).trans (by simpa using jsSortAux_perm c l [])

section SortTheory

variable {α : Type} (key : α → String)

theorem insertRev_filter_same (x : α) (l : List α)
    (g : α → Bool) (hg : ∀ y, g y = true → ¬ key y = key x) :
    (insertRevJS g x l).filter (fun a => key a == key x) =
      x :: l.filter (fun a => key a == key x) := by
  induction l with
  | nil => simp [insertRevJS, List.filter]
  | cons y ys ih =>
    by_cases hgy : g y = true
    · rw [insertRevJS, if_pos hgy]
      have hne : (key y == key x) = false := beq_eq_false_iff_ne.mpr (hg y hgy)
      simp only [List.filter_cons, hne, Bool.false_eq_true, if_false]
      rw [ih]
    · rw [insertRevJS, if_neg hgy]
      simp only [List.filter_cons, beq_self_eq_true, if_true]

theorem insertRev_filter_other (x : α) (l : List α) (g : α → Bool)
    (v : String) (hvx : ¬ key x = v) :
    (insertRevJS g x l).filter (fun a => key a == v) =
      l.filter (fun a => key a == v) := by
  induction l with
  | nil => simp [insertRevJS, List.filter, beq_eq_false_iff_ne.mpr hvx]
  | cons y ys ih =>
    by_cases hgy : g y = true
    · rw [insertRevJS, if_pos hgy]
      simp only [List.filter_cons]
      rw [ih]
    · rw [insertRevJS, if_neg hgy]
      simp only [List.filter_cons, beq_eq_false_iff_ne.mpr hvx, Bool.false_eq_true,
        if_false]

theorem jsSortAux_filter (v : String) :
    ∀ (l acc : List α),
      (jsSortAux (fun a b => cmpStr (key a) (key b)) acc l).filter
          (fun a => key a == v) =
        (l.filter (fun a => key a == v)).reverse ++ acc.filter (fun a => key a == v) := by
  intro l
  induction l with
  | nil => intro acc; simp [jsSortAux]
  | cons x xs ih =>
    intro acc
    rw [jsSortAux, ih]
    by_cases hx : key x = v
    · subst hx
      rw [insertRev_filter_same key x acc _ (fun y hy => by
        have hlt := (cmpStr_gt_iff (key y) (key x)).mp hy
        exact fun he => absurd hlt (by rw [he]; exact lt_irrefl _))]
      simp only [List.filter_cons, beq_self_eq_true, if_true, List.reverse_cons]
      simp
    · rw [insertRev_filter_other key x acc _ v hx]
      simp only [List.filter_cons, beq_eq_false_iff_ne.mpr hx, Bool.false_eq_true,
        if_false]

theorem jsSort_filter (v : String) (l : List α) :
    (jsSort (fun a b => cmpStr (key a) (key b)) l).filter (fun a => key a == v) =
      l.filter (fun a => key a == v) := by
  unfold jsSort
  rw [List.filter_reverse, jsSortAux_filter]
  simp

theorem insertRev_pairwise (x : α) (l : List α)
    (hl : List.Pairwise (fun a b => ¬ key a < key b) l) :
    List.Pairwise (fun a b => ¬ key a < key b)
      (insertRevJS (fun y => cmpStr (key y) (key x) == Ordering.gt) x l) := by
  induction l with
  | nil => simp [insertRevJS]
  | cons y ys ih =>
    rcases List.pairwise_cons.mp hl with ⟨hy, hys⟩
    by_cases hgy : (cmpStr (key y) (key x) == Ordering.gt) = true
    · rw [insertRevJS, if_pos hgy]
      rw [List.pairwise_cons]
      refine ⟨?_, ih hys⟩
      intro z hz
      have hz2 := (insertRev_perm _ x ys).mem_iff.mp hz
      rcases List.mem_cons.mp hz2 with heq | hz3
      · subst heq
        exact fun hlt => absurd ((cmpStr_gt_iff _ _).mp hgy) (lt_asymm hlt)
      · exact hy z hz3
    · rw [insertRevJS, if_neg hgy]
      rw [List.pairwise_cons]
      have hxy : ¬ key x < key y := fun h =>
        absurd ((cmpStr_gt_iff (key y) (key x)).mpr h) hgy
      refine ⟨?_, hl⟩
      intro z hz
      rcases List.mem_cons.mp hz with heq | hz3
      · subst heq; exact hxy
      · have hzy : key z ≤ key y := not_lt.mp (hy z hz3)
        have hyx : key y ≤ key x := not_lt.mp hxy
        exact not_lt.mpr (le_trans hzy hyx)

theorem jsSortAux_pairwise :
    ∀ (l acc : List α),
      List.Pairwise (fun a b => ¬ key a < key b) acc →
      List.Pairwise (fun a b => ¬ key a < key b)
        (jsSortAux (fun a b => cmpStr (key a) (key b)) acc l) := by
  intro l
  induction l with
  | nil => intro acc h; exact h
  | cons x xs ih =>
    intro acc h
    rw [jsSortAux]
    exact ih _ (insertRev_pairwise key x acc h)

theorem jsSort_sorted (l : List α) :
    List.Pairwise (fun a b => ¬ key b < key a)
      (jsSort (fun a b => cmpStr (key a) (key b)) l) := by
  unfold jsSort
  rw [List.pairwise_reverse]
  exact jsSortAux_pairwise key l [] (by simp)

theorem jsSortAux_sorted_id :
    ∀ (l acc : List α),
      List.Pairwise (fun a b => ¬ key b < key a) l →
      (∀ y ∈ acc, ∀ z ∈ l, ¬ key z < key y) →
      jsSortAux (fun a b => cmpStr (key a) (key b)) acc l = l.reverse ++ acc := by
  intro l
  induction l with
  | nil => intro acc _ _; simp [jsSortAux]
  | cons x xs ih =>
    intro acc hsort hacc
    rcases List.pairwise_cons.mp hsort with ⟨hx, hxs⟩
    rw [jsSortAux]
    have hins : insertRevJS (fun y => cmpStr (key y) (key x) == Ordering.gt) x acc =
        x :: acc := by
      cases acc with
      | nil => rfl
      | cons y ys =>
        rw [insertRevJS, if_neg]
        rw [cmpStr_not_gt (hacc y (by simp) x (by simp))]
        simp
    have harg : ∀ y ∈ x :: acc, ∀ z ∈ xs, ¬ key z < key y := by
      intro y hy z hz
      rcases List.mem_cons.mp hy with heq | hy2
      · subst heq; exact hx z hz
      · exact hacc y hy2 z (List.mem_cons_of_mem x hz)
    rw [hins, ih (x :: acc) hxs harg]
    simp

theorem jsSort_sorted_id (l : List α)
    (hsort : List.Pairwise (fun a b => ¬ key b < key a) l) :
    jsSort (fun a b => cmpStr (key a) (key b)) l = l := by
  unfold jsSort
  rw [jsSortAux_sorted_id key l [] hsort (by simp)]
  simp

end SortTheory

theorem insertRev_map {α β : Type} (f : α → β) (g : α → Bool) (g2 : β → Bool)
    (hg : ∀ a, g a = g2 (f a)) (x : α) (l : List α) :
    (insertRevJS g x l).map f = insertRevJS g2 (f x) (l.map f) := by
  induction l with
  | nil => simp [insertRevJS]
  | cons y ys ih =>
    by_cases hgy : g y = true
    · rw [insertRevJS, if_pos hgy, List.map_cons, List.map_cons, insertRevJS,
        if_pos (by rw [← hg]; exact hgy), ih]
    · rw [insertRevJS, if_neg hgy, List.map_cons, List.map_cons, insertRevJS,
        if_neg (by rw [← hg]; exact hgy)]

theorem jsSortAux_map {α β : Type} (f : α → β) (c1 : α → α → Ordering)
    (c2 : β → β → Ordering) (hc : ∀ a b, c1 a b = c2 (f a) (f b)) :
    ∀ (l acc : List α),
      (jsSortAux c1 acc l).map f = jsSortAux c2 (acc.map f) (l.map f) := by
  intro l
  induction l with
  | nil => intro acc; simp [jsSortAux]
  | cons x xs ih =>
    intro acc
    rw [List.map_cons, jsSortAux, jsSortAux, ih,
      insertRev_map f _ (fun y => c2 y (f x) == Ordering.gt) (fun a => by rw [hc])]

theorem jsSort_map {α β : Type} (f : α → β) (c1 : α → α → Ordering)
    (c2 : β → β → Ordering) (hc : ∀ a b, c1 a b = c2 (f a) (f b)) (l : List α) :
    (jsSort c1 l).map f = jsSort c2 (l.map f) := by
  unfold jsSort
  rw [List.map_reverse, jsSortAux_map f c1 c2 hc]
  rfl

/-!
## Source-shaped equations for `sortXmlElements`

These restate the model in exactly the shape of the TypeScript source:
sort the collection first (`sortClassAccesses` / `sortArrayElements` /
key sort), then canonicalize each element.
-/

theorem sortXml_null (pk : Option String) : sortXmlElements .null pk = .null := by
  rw [sortXmlElements]

theorem sortXml_str (s : String) (pk : Option String) :
    sortXmlElements (.str s) pk = .str s := by
  rw [sortXmlElements]

theorem sortXml_obj (kvs : List (String × JVal)) (pk : Option String) :
    sortXmlElements (.obj kvs) pk = .obj (jsSort (fun p q => cmpStr p.1 q.1)
      (kvs.map (fun kv => (kv.1, sortXmlElements kv.2 (some kv.1))))) := by
  rw [sortXmlElements]
  congr 1
  congr 1
  rw [← List.attach_map_coe kvs (fun kv => (kv.1, sortXmlElements kv.2 (some kv.1)))]

theorem sortXml_obj_src (kvs : List (String × JVal)) (pk : Option String) :
    sortXmlElements (.obj kvs) pk = .obj ((jsSort (fun p q => cmpStr p.1 q.1) kvs).map
      (fun kv => (kv.1, sortXmlElements kv.2 (some kv.1)))) := by
  rw [sortXml_obj]
  congr 1
  exact (jsSort_map (fun kv => (kv.1, sortXmlElements kv.2 (some kv.1)))
    (fun p q => cmpStr p.1 q.1) (fun p q => cmpStr p.1 q.1) (fun a b => rfl) kvs).symm

theorem sortXml_arr_ca (xs : List JVal) :
    sortXmlElements (.arr xs) (some "classAccesses") =
      .arr ((sortClassAccesses xs).map (fun i => sortXmlElements i none)) := by
  rw [sortXmlElements, if_pos rfl]
  congr 1
  rw [show (fun (p : {x // x ∈ xs}) => sortXmlElements p.1 none) =
      (fun i => sortXmlElements i none) ∘ Subtype.val from rfl]
  rw [← List.map_map]
  rw [jsSort_map Subtype.val _ compCA (fun a b => rfl)]
  congr 1
  unfold sortClassAccesses
  congr 1
  simp

theorem sortXml_arr_sorted (xs : List JVal) (pk : Option String)
    (h1 : ¬ pk = some "classAccesses")
    (h2 : (keyTruthy pk && headIsObj xs) = true) :
    sortXmlElements (.arr xs) pk =
      .arr ((sortArrayElements xs (pk.getD "")).map (fun i => sortXmlElements i none)) := by
  rw [sortXmlElements, if_neg h1, if_pos h2]
  congr 1
  rw [show (fun (p : {x // x ∈ xs}) => sortXmlElements p.1 none) =
      (fun i => sortXmlElements i none) ∘ Subtype.val from rfl]
  rw [← List.map_map]
  rw [jsSort_map Subtype.val _ (compArr (pk.getD "")) (fun a b => rfl)]
  congr 1
  unfold sortArrayElements
  congr 1
  simp

theorem sortXml_arr_plain (xs : List JVal) (pk : Option String)
    (h1 : ¬ pk = some "classAccesses")
    (h2 : (keyTruthy pk && headIsObj xs) = false) :
    sortXmlElements (.arr xs) pk = .arr (xs.map (fun i => sortXmlElements i none)) := by
  rw [sortXmlElements, if_neg h1, if_neg (by simp [h2])]
  congr 1
  rw [← List.attach_map_coe xs (fun i => sortXmlElements i none)]

/-!
## Comparator bridges
-/

theorem compCA_eq : compCA = fun a b => cmpStr (keyCA a) (keyCA b) := rfl

theorem compArr_fp :
    compArr "fieldPermissions" = fun a b => cmpStr (keyFP a) (keyFP b) := by
  funext a b
  unfold compArr
  rw [if_pos rfl]
  rfl

theorem compArr_sf (k : String) (hk : k ∈ sfCtxKeys) :
    compArr k = fun a b => cmpStr (keySF a) (keySF b) := by
  funext a b
  have hk2 : k = "customPermissions" ∨ k = "customMetadataTypeAccesses" ∨
      k = "externalCredentialPrincipalAccesses" ∨ k = "objectPermissions" ∨
      k = "recordTypeVisibilities" ∨ k = "tabVisibilities" ∨ k = "states" := by
    simpa [sfCtxKeys] using hk
  have hfp : ¬ k = "fieldPermissions" := by
    rcases hk2 with rfl | rfl | rfl | rfl | rfl | rfl | rfl <;> decide
  unfold compArr
  rw [if_neg hfp, if_pos hk2]
  rfl

theorem valChain_head_none (a : JVal) (k : String) (ks : List String)
    (h : getField a k = none) : valChain a (k :: ks) = valChain a ks := by
  simp [valChain, h, truthyStr]

theorem string_empty_le (s : String) : "" ≤ s :=
  String.le_iff_toList_le.mpr List.nil_le

theorem string_empty_lt {s : String} (h : s ≠ "") : "" < s := by
  rw [String.lt_iff_toList_lt]
  cases hs : s with
  | mk l =>
    cases l with
    | nil => exact absurd hs (by rw [hs] at h ⊢; exact h)
    | cons c t => exact List.nil_lt_cons c t

/-!
## Claim theorems for the sorter
-/

/-- C4. Canonicalizing a mapping reorders its keys into the order of
the case-sensitive byte-value comparator: the output keys are a
permutation of the input keys sorted non-decreasingly under the string
order; every uppercase letter compares strictly below every lowercase
letter; and the mapping with keys zebra, Zebra, apple, Apple
canonicalizes to key order Apple, Zebra, apple, zebra. -/
theorem claim_C4_mapping_keys :
    (∀ (kvs : List (String × JVal)) (pk : Option String),
      ∃ kvs2, sortXmlElements (.obj kvs) pk = .obj kvs2 ∧
        (kvs2.map Prod.fst).Perm (kvs.map Prod.fst) ∧
        List.Pairwise (fun a b => a ≤ b) (kvs2.map Prod.fst)) ∧
    (∀ c d : Char, c.isUpper = true → d.isLower = true →
      String.mk [c] < String.mk [d]) ∧
    jsKeys (sortXmlElements (.obj [("zebra", .str "1"), ("Zebra", .str "2"),
      ("apple", .str "3"), ("Apple", .str "4")]) none) =
      ["Apple", "Zebra", "apple", "zebra"] := by
  refine ⟨?_, ?_, ?_⟩
  · intro kvs pk
    refine ⟨_, sortXml_obj kvs pk, ?_, ?_⟩
    · have h1 : (jsSort (fun p q => cmpStr p.1 q.1)
          (kvs.map (fun kv => (kv.1, sortXmlElements kv.2 (some kv.1))))).map Prod.fst =
          jsSort (fun a b => cmpStr a b)
            ((kvs.map (fun kv => (kv.1, sortXmlElements kv.2 (some kv.1)))).map Prod.fst) :=
        jsSort_map Prod.fst _ _ (fun a b => rfl) _
      rw [h1, List.map_map]
      have h2 : (Prod.fst ∘ fun kv : String × JVal =>
          (kv.1, sortXmlElements kv.2 (some kv.1))) = Prod.fst := rfl
      rw [h2]
      exact jsSort_perm _ _
    · have h1 : (jsSort (fun p q => cmpStr p.1 q.1)
          (kvs.map (fun kv => (kv.1, sortXmlElements kv.2 (some kv.1))))).map Prod.fst =
          jsSort (fun a b => cmpStr a b)
            ((kvs.map (fun kv => (kv.1, sortXmlElements kv.2 (some kv.1)))).map Prod.fst) :=
        jsSort_map Prod.fst _ _ (fun a b => rfl) _
      rw [h1]
      exact (jsSort_sorted (fun s : String => s) _).imp (fun h => not_lt.mp h)
  · intro c d hc hd
    refine String.lt_iff_toList_lt.mpr (List.Lex.rel ?_)
    simp only [Char.isUpper, Bool.and_eq_true, decide_eq_true_eq] at hc
    simp only [Char.isLower, Bool.and_eq_true, decide_eq_true_eq] at hd
    show c.val.toNat < d.val.toNat
    have h1 : c.val.toNat ≤ 90 := hc.2
    have h2 : 97 ≤ d.val.toNat := hd.1
    omega
  · rw [sortXml_obj]
    simp only [List.map_cons, List.map_nil, sortXml_str]
    decide

/-- Witness for C4: the uppercase/lowercase separation at `Z` and `a`,
through the theorem itself. -/
theorem claim_C4_mapping_keys_witness :
    String.mk ['Z'] < String.mk ['a'] :=
  claim_C4_mapping_keys.2.1 'Z' 'a' rfl rfl

/-- C5. Type-specific sort-key selection: `fieldPermissions` sequences
are sorted by each element's `field` value and `classAccesses`
sequences by each element's `apexClass` value under the case-sensitive
comparator; on the concrete inputs of the claim the canonical orders
are exactly the listed ones. -/
theorem claim_C5_sort_key_selection :
    (∀ xs : List JVal, List.Pairwise (fun a b => keyFP a ≤ keyFP b)
      (sortArrayElements xs "fieldPermissions")) ∧
    (∀ xs : List JVal, List.Pairwise (fun a b => keyCA a ≤ keyCA b)
      (sortClassAccesses xs)) ∧
    (sortArrayElements [fpElem "Test.Example__c", fpElem "Test.Exampleone__c",
        fpElem "Test.ExampleOne__c", fpElem "Test.Examplethree__c",
        fpElem "Test.ExampleTwo__c"] "fieldPermissions").map keyFP =
      ["Test.ExampleOne__c", "Test.ExampleTwo__c", "Test.Example__c",
        "Test.Exampleone__c", "Test.Examplethree__c"] ∧
    (sortClassAccesses [caElem "TestClass", caElem "testClass",
        caElem "AnotherClass", caElem "anotherClass"]).map keyCA =
      ["AnotherClass", "TestClass", "anotherClass", "testClass"] := by
  refine ⟨?_, ?_, ?_, ?_⟩
  · intro xs
    unfold sortArrayElements
    rw [compArr_fp]
    exact (jsSort_sorted keyFP xs).imp (fun h => not_lt.mp h)
  · intro xs
    unfold sortClassAccesses
    rw [compCA_eq]
    exact (jsSort_sorted keyCA xs).imp (fun h => not_lt.mp h)
  · decide
  · decide

/-- C6. Sequence-sort tie-break policy for the rule-table contexts:
the sorts are permutations, sorted non-decreasingly by the context's
sort key; they are stable (for every key value, the subsequence of
elements with that key is preserved verbatim, so equal-key elements --
including all-candidates-absent ones -- never swap); an element whose
sort-key field is absent gets the empty string as its key, and the
empty string sorts before every non-empty key. -/
theorem claim_C6_tiebreak_stability :
    (∀ xs : List JVal,
      (sortArrayElements xs "fieldPermissions").Perm xs ∧
      List.Pairwise (fun a b => keyFP a ≤ keyFP b)
        (sortArrayElements xs "fieldPermissions") ∧
      ∀ v, (sortArrayElements xs "fieldPermissions").filter (fun a => keyFP a == v) =
        xs.filter (fun a => keyFP a == v)) ∧
    (∀ k, k ∈ sfCtxKeys → ∀ xs : List JVal,
      (sortArrayElements xs k).Perm xs ∧
      List.Pairwise (fun a b => keySF a ≤ keySF b) (sortArrayElements xs k) ∧
      ∀ v, (sortArrayElements xs k).filter (fun a => keySF a == v) =
        xs.filter (fun a => keySF a == v)) ∧
    (∀ xs : List JVal,
      (sortClassAccesses xs).Perm xs ∧
      List.Pairwise (fun a b => keyCA a ≤ keyCA b) (sortClassAccesses xs) ∧
      ∀ v, (sortClassAccesses xs).filter (fun a => keyCA a == v) =
        xs.filter (fun a => keyCA a == v)) ∧
    (∀ a : JVal, getField a "field" = none → keyFP a = "") ∧
    (∀ a : JVal, getField a "apexClass" = none → keyCA a = "") ∧
    (∀ a : JVal, (∀ f ∈ sfCands, getField a f = none) → keySF a = "") ∧
    (∀ s : String, s ≠ "" → "" < s) := by
  refine ⟨?_, ?_, ?_, ?_, ?_, ?_, ?_⟩
  · intro xs
    unfold sortArrayElements
    rw [compArr_fp]
    exact ⟨jsSort_perm _ _, (jsSort_sorted keyFP xs).imp (fun h => not_lt.mp h),
      fun v => jsSort_filter keyFP v xs⟩
  · intro k hk xs
    unfold sortArrayElements
    rw [compArr_sf k hk]
    exact ⟨jsSort_perm _ _, (jsSort_sorted keySF xs).imp (fun h => not_lt.mp h),
      fun v => jsSort_filter keySF v xs⟩
  · intro xs
    unfold sortClassAccesses
    rw [compCA_eq]
    exact ⟨jsSort_perm _ _, (jsSort_sorted keyCA xs).imp (fun h => not_lt.mp h),
      fun v => jsSort_filter keyCA v xs⟩
  · intro a h
    unfold keyFP
    rw [valChain_head_none a _ _ h]
    rfl
  · intro a h
    unfold keyCA
    rw [valChain_head_none a _ _ h]
    rfl
  · intro a h
    unfold keySF
    rw [show sfCands = ["name", "object", "recordType", "tab", "isoCode"] from rfl]
    rw [valChain_head_none a _ _ (h "name" (by simp [sfCands])),
      valChain_head_none a _ _ (h "object" (by simp [sfCands])),
      valChain_head_none a _ _ (h "recordType" (by simp [sfCands])),
      valChain_head_none a _ _ (h "tab" (by simp [sfCands])),
      valChain_head_none a _ _ (h "isoCode" (by simp [sfCands]))]
    rfl
  · exact fun s h => string_empty_lt h

/-- Witness for C6 at concrete inputs: a `customPermissions` context,
an element lacking its `field` candidate (sort key empty), and the
strict empty-first ordering. -/
theorem claim_C6_tiebreak_stability_witness :
    (sortArrayElements [fpElem "B", fpElem "A"] "customPermissions").Perm
      [fpElem "B", fpElem "A"] ∧
    keyFP (JVal.obj [("editable", JVal.arr [JVal.str "true"])]) = "" ∧
    ("" : String) < "A" :=
  ⟨(claim_C6_tiebreak_stability.2.1 "customPermissions" (by decide)
      [fpElem "B", fpElem "A"]).1,
    claim_C6_tiebreak_stability.2.2.2.1 _ rfl,
    claim_C6_tiebreak_stability.2.2.2.2.2.2 "A" (by decide)⟩

/-- C2 (code bug). The sorter has no exemption set: a `dispositions`
sequence is sorted through the generic fallback like any other
sequence of mappings, so canonicalization does NOT preserve its input
order.  On the document with `fileType` values ZIP then AVI, the first
disposition is ZIP before canonicalization and AVI after it, although
the repository's own instructions require `dispositions` inside
`FileUploadAndDownloadSecurity.settings-meta.xml` to remain unsorted. -/
theorem claim_C2_dispositions_reordered :
    firstDispositionFileType dispDoc = "ZIP" ∧
    firstDispositionFileType (sortXmlElements dispDoc none) = "AVI" := by
  constructor
  · rfl
  · show firstDispositionFileType (sortXmlElements
      (JVal.obj [("dispositions", JVal.arr [dispElem "ZIP", dispElem "AVI"])]) none) = "AVI"
    rw [sortXml_obj]
    rw [List.map_cons, List.map_nil]
    rw [sortXml_arr_sorted [dispElem "ZIP", dispElem "AVI"] (some "dispositions")
      (by decide) (by rfl)]
    rw [show (Option.getD (some "dispositions") "") = "dispositions" from rfl]
    rw [show sortArrayElements [dispElem "ZIP", dispElem "AVI"] "dispositions" =
      [dispElem "AVI", dispElem "ZIP"] from rfl]
    rw [List.map_cons, List.map_cons, List.map_nil]
    show firstDispositionFileType (JVal.obj (jsSort _
      [("dispositions", JVal.arr [sortXmlElements (dispElem "AVI") none,
        sortXmlElements (dispElem "ZIP") none])])) = "AVI"
    rw [show sortXmlElements (dispElem "AVI") none =
        JVal.obj (jsSort (fun p q => cmpStr p.1 q.1)
          [("fileType", sortXmlElements (JVal.arr [JVal.str "AVI"]) (some "fileType"))]) from by
      rw [show dispElem "AVI" = JVal.obj [("fileType", JVal.arr [JVal.str "AVI"])] from rfl,
        sortXml_obj, List.map_cons, List.map_nil]]
    rw [show sortXmlElements (dispElem "ZIP") none =
        JVal.obj (jsSort (fun p q => cmpStr p.1 q.1)
          [("fileType", sortXmlElements (JVal.arr [JVal.str "ZIP"]) (some "fileType"))]) from by
      rw [show dispElem "ZIP" = JVal.obj [("fileType", JVal.arr [JVal.str "ZIP"])] from rfl,
        sortXml_obj, List.map_cons, List.map_nil]]
    rw [sortXml_arr_plain [JVal.str "AVI"] (some "fileType") (by decide) (by rfl),
      sortXml_arr_plain [JVal.str "ZIP"] (some "fileType") (by decide) (by rfl)]
    rw [List.map_cons, List.map_nil, sortXml_str, List.map_cons, List.map_nil, sortXml_str]
    rfl

/-!
## Claim C7: hash-based change detection
-/

/-- **C7.** Change detection: for every pair of strings, the change
decision of `processFile` (`originalHash !== sortedHash`, with both
hashes computed by `hashString`) reports a modification exactly when the
SHA-256 digests of the two strings differ; in particular, when the
rebuilt canonical text equals the original text the detector returns
`false`, which is the branch of `processFile` that leaves the file
unwritten. -/
theorem claim_C7_change_detection :
    (∀ original canonical : String,
      wasModified original canonical = true ↔
        hashString original ≠ hashString canonical) ∧
    (∀ original canonical : String,
      canonical = original → wasModified original canonical = false) := by
  constructor
  · intro o c
    simp [wasModified]
  · intro o c h
    subst h
    simp [wasModified]

/-- Witness for C7: equal input and output are reported as unmodified. -/
theorem claim_C7_change_detection_witness :
    wasModified "x" "x" = false :=
  claim_C7_change_detection.2 "x" "x" rfl

/-!
## Claim C8: self-closing expansion
-/

set_option maxRecDepth 8000 in
/-- The rendered `<Test><selfClosing/></Test>` document contains no
entity marker, so the restore pass leaves it unchanged. -/
theorem selfTreeRestore :
    restoreXmlEntities (String.mk (renderDoc 3 "Test" selfTree)) =
      String.mk (renderDoc 3 "Test" selfTree) := by
  unfold restoreXmlEntities unmaskL
  have h1 : contSub mAmp (String.mk (renderDoc 3 "Test" selfTree)).data = false := by decide
  have h2 : contSub mLt (String.mk (renderDoc 3 "Test" selfTree)).data = false := by decide
  have h3 : contSub mGt (String.mk (renderDoc 3 "Test" selfTree)).data = false := by decide
  have h4 : contSub mQuot (String.mk (renderDoc 3 "Test" selfTree)).data = false := by decide
  have h5 : contSub mApos (String.mk (renderDoc 3 "Test" selfTree)).data = false := by decide
  rw [noOccur eAmp h1, noOccur eLt h2, noOccur eGt h3, noOccur eQuot h4, noOccur eApos h5]

set_option maxRecDepth 8000 in
/-- **C8, counterexample.** The claim says the builder's output never
contains a self-closing `<tag/>` spelling, citing both builders; but
`buildXml` in `sf-metadata-adjuster.ts` has no expansion pass, and its
output for the document `<Test><selfClosing/></Test>` still contains
`<selfClosing/>`. -/
theorem claim_C8_selfclosing_cex :
    contSub "<selfClosing/>".data (buildXml 3 selfTree "Test").data = true := by
  unfold buildXml
  rw [selfTreeRestore]
  decide

set_option maxRecDepth 8000 in
/-- **C8, amended.** Self-closing normalization holds for the shared
helper `buildMetadataXml` (xml-helpers), which post-processes the
serializer output with the global replacement of `<(\w+)([^>]*)\/>`
by `<$1$2></$1>`: the document `<Test><selfClosing/></Test>` builds to
output containing `<selfClosing></selfClosing>` and not the
self-closed spelling. -/
theorem claim_C8_selfclosing_expand :
    contSub "<selfClosing></selfClosing>".data
        (buildMetadataXml 3 selfTree "Test").data = true ∧
      contSub "<selfClosing/>".data (buildMetadataXml 3 selfTree "Test").data = false := by
  unfold buildMetadataXml
  rw [selfTreeRestore]
  exact ⟨by decide, by decide⟩

/-!
## Claim C9: exactly one trailing newline

The serializer output always ends in `>` (the last character of the
root's closing or self-closing tag); the restore and expansion passes
preserve that (their patterns end in `;` resp. rewrite tails ending in
`>`), so the trailing-newline guard appends exactly one newline.
-/

theorem glCons {α : Type} (a : α) {l : List α} (h : l ≠ []) :
    (a :: l).getLast? = l.getLast? := by
  cases l with
  | nil => exact absurd rfl h
  | cons b t => exact List.getLast?_cons_cons

theorem glAppend {α : Type} (l1 : List α) {l2 : List α} (h : l2 ≠ []) :
    (l1 ++ l2).getLast? = l2.getLast? := by
  induction l1 with
  | nil => rfl
  | cons a t ih =>
    rw [List.cons_append, glCons a, ih]
    intro habs
    rcases List.append_eq_nil.mp habs with ⟨_, h2⟩
    exact h h2

theorem glSome_ne_nil {α : Type} {l : List α} {x : α} (h : l.getLast? = some x) :
    l ≠ [] := by
  intro he
  subst he
  simp at h

theorem openTag_last (name : String) : (openTag name).getLast? = some '>' := by
  rw [openTag, glCons _ (by simp), glAppend _ (by simp)]
  rfl

theorem closeTag_last (name : String) : (closeTag name).getLast? = some '>' := by
  rw [closeTag, glCons _ (by simp), glCons _ (by simp), glAppend _ (by simp)]
  rfl

theorem selfTag_last (name : String) : (selfTag name).getLast? = some '>' := by
  rw [selfTag, glCons _ (by simp), glAppend _ (by simp)]
  rfl

theorem joinNL_last : ∀ (chunks : List (List Char)), chunks ≠ [] →
    (∀ c ∈ chunks, c.getLast? = some '>') →
    (joinNL chunks).getLast? = some '>' := by
  intro chunks
  induction chunks with
  | nil => intro h; exact absurd rfl h
  | cons x r ih =>
    intro _ hall
    cases r with
    | nil =>
      rw [show joinNL [x] = x from rfl]
      exact hall x (by simp)
    | cons y r2 =>
      rw [show joinNL (x :: y :: r2) = x ++ ('\n' :: joinNL (y :: r2)) from rfl]
      have h2 := ih (by simp) (fun c hc => hall c (List.mem_cons_of_mem x hc))
      rw [glAppend _ (by simp), glCons _ (glSome_ne_nil h2)]
      exact h2

theorem renderElem_last : ∀ (fuel : Nat) (v : JVal), renderable fuel v = true →
    ∀ (ind : Nat) (name : String),
      (renderElem fuel ind name v).getLast? = some '>' := by
  intro fuel
  induction fuel with
  | zero =>
    intro v h
    rw [renderable] at h
    exact absurd h (by simp)
  | succ f ih =>
    intro v h ind name
    cases v with
    | str s =>
      rw [show renderElem (f + 1) ind name (.str s) =
          (if s.data.isEmpty then indentChars ind ++ selfTag name
           else indentChars ind ++ (openTag name ++ (s.data ++ closeTag name))) from rfl]
      by_cases he : s.data.isEmpty
      · rw [if_pos he, glAppend _ (glSome_ne_nil (selfTag_last name))]
        exact selfTag_last name
      · rw [if_neg he,
          glAppend _ (by simp [openTag]),
          glAppend _ (by simp [closeTag]),
          glAppend _ (by simp [closeTag])]
        exact closeTag_last name
    | null =>
      rw [show renderElem (f + 1) ind name .null = indentChars ind ++ selfTag name from rfl,
        glAppend _ (glSome_ne_nil (selfTag_last name))]
      exact selfTag_last name
    | arr xs =>
      rw [show renderable (f + 1) (.arr xs) = (!xs.isEmpty && xs.all (renderable f))
          from rfl] at h
      simp only [Bool.and_eq_true, Bool.not_eq_true', List.all_eq_true] at h
      have hne : xs ≠ [] := by
        intro habs
        rw [habs] at h
        simp at h
      rw [show renderElem (f + 1) ind name (.arr xs) =
          joinNL (xs.map (renderElem f ind name)) from rfl]
      refine joinNL_last _ (by simp [hne]) ?_
      intro c hc
      rcases List.mem_map.mp hc with ⟨x, hx, rfl⟩
      exact ih x (h.2 x hx) ind name
    | obj kvs =>
      rw [show renderable (f + 1) (.obj kvs) = kvs.all (fun p => renderable f p.2)
          from rfl] at h
      rw [List.all_eq_true] at h
      rw [show renderElem (f + 1) ind name (.obj kvs) =
          (if kvs.isEmpty then indentChars ind ++ selfTag name
           else
             (indentChars ind ++ openTag name) ++
               ('\n' :: (joinNL (kvs.map (fun p => renderElem f (ind + 1) p.1 p.2)) ++
                 ('\n' :: (indentChars ind ++ closeTag name))))) from rfl]
      by_cases he : kvs.isEmpty
      · rw [if_pos he, glAppend _ (glSome_ne_nil (selfTag_last name))]
        exact selfTag_last name
      · rw [if_neg he,
          glAppend _ (by simp),
          glCons _ (by simp [closeTag]),
          glAppend _ (by simp),
          glCons _ (by simp [closeTag]),
          glAppend _ (by simp [closeTag])]
        exact closeTag_last name

theorem renderDoc_last (fuel : Nat) (v : JVal) (rootName : String)
    (h : renderable fuel v = true) :
    (renderDoc fuel rootName v).getLast? = some '>' := by
  unfold renderDoc
  rw [glAppend _ (by simp),
    glCons _ (glSome_ne_nil (renderElem_last fuel v h 0 rootName))]
  exact renderElem_last fuel v h 0 rootName

theorem replaceL_getLast (p r : List Char) (z : Char) (hp : p ≠ [])
    (hz : p.getLast? ≠ some z) :
    ∀ s, s.getLast? = some z → (replaceL p r s).getLast? = some z := by
  suffices H : ∀ n s, s.length ≤ n → s.getLast? = some z →
      (replaceL p r s).getLast? = some z by
    exact fun s hs => H s.length s le_rfl hs
  intro n
  induction n with
  | zero =>
    intro s hlen hs
    have : s = [] := List.eq_nil_of_length_eq_zero (Nat.le_zero.mp hlen)
    subst this
    simp at hs
  | succ n ihn =>
    intro s hlen hs
    cases s with
    | nil => simp at hs
    | cons x t =>
      by_cases hfire : hasPref p (x :: t) = true
      · rw [replaceL_fire r hp hfire]
        have hple : 0 < p.length := List.length_pos.mpr hp
        have hup : p.length < (x :: t).length := by
          rcases Nat.lt_or_ge p.length (x :: t).length with hlt | hge
          · exact hlt
          · exfalso
            have htake : (x :: t).take p.length = x :: t := List.take_of_length_le hge
            have hpp : x :: t = p := by
              rw [← htake]
              exact hasPref_iff.mp hfire
            rw [← hpp] at hz
            exact hz hs
        have hulen : 0 < ((x :: t).drop p.length).length := by
          rw [List.length_drop]
          omega
        have hune : (x :: t).drop p.length ≠ [] := List.ne_nil_of_length_pos hulen
        have hul : ((x :: t).drop p.length).getLast? = some z := by
          rw [← hs]
          conv_rhs => rw [← List.take_append_drop p.length (x :: t)]
          rw [glAppend _ hune]
        have hrec := ihn ((x :: t).drop p.length)
          (by rw [List.length_drop]; simp only [List.length_cons] at hlen ⊢; omega) hul
        rw [glAppend r (glSome_ne_nil hrec)]
        exact hrec
      · rw [replaceL_skip r (Bool.not_eq_true _ ▸ hfire)]
        cases t with
        | nil =>
          rw [replaceL_nil]
          exact hs
        | cons y t2 =>
          have ht : (y :: t2).getLast? = some z := by
            rw [← hs]
            exact (glCons x (by simp)).symm
          have hrec := ihn (y :: t2)
            (by simp only [List.length_cons] at hlen ⊢; omega) ht
          rw [glCons x (glSome_ne_nil hrec)]
          exact hrec

theorem unmaskL_getLast {l : List Char} (h : l.getLast? = some '>') :
    (unmaskL l).getLast? = some '>' := by
  unfold unmaskL
  exact replaceL_getLast mApos eApos '>' (by decide) (by decide) _
    (replaceL_getLast mQuot eQuot '>' (by decide) (by decide) _
      (replaceL_getLast mGt eGt '>' (by decide) (by decide) _
        (replaceL_getLast mLt eLt '>' (by decide) (by decide) _
          (replaceL_getLast mAmp eAmp '>' (by decide) (by decide) _ h))))

theorem scanTail_spec : ∀ (l g2 rest : List Char), scanTail l = some (g2, rest) →
    l = g2 ++ ('/' :: ('>' :: rest)) := by
  intro l
  induction l with
  | nil => intro g2 rest h; simp [scanTail] at h
  | cons c t ih =>
    intro g2 rest h
    rw [scanTail] at h
    by_cases h1 : c = '/' ∧ t.head? = some '>'
    · rw [if_pos h1] at h
      obtain ⟨hc, hh⟩ := h1
      cases t with
      | nil => simp at hh
      | cons d t2 =>
        simp only [List.head?_cons, Option.some.injEq] at hh
        simp only [Option.some.injEq, Prod.mk.injEq] at h
        obtain ⟨hg, hr⟩ := h
        subst hc hh hg
        simp only [List.tail_cons] at hr
        subst hr
        rfl
    · rw [if_neg h1] at h
      by_cases h2 : c = '>'
      · rw [if_pos h2] at h
        exact absurd h (by simp)
      · rw [if_neg h2] at h
        cases ht : scanTail t with
        | none => rw [ht] at h; simp at h
        | some p =>
          rw [ht] at h
          cases p with
          | mk g2t restt =>
            simp only [Option.map_some', Option.some.injEq, Prod.mk.injEq] at h
            obtain ⟨hg, hr⟩ := h
            subst hg hr
            rw [List.cons_append]
            rw [← ih g2t restt ht]

theorem scMatch_spec (s g1 g2 rest : List Char)
    (h : scMatch s = some (g1, g2, rest)) :
    s = '<' :: (g1 ++ (g2 ++ ('/' :: ('>' :: rest)))) ∧ g1 ≠ [] := by
  cases s with
  | nil => simp [scMatch] at h
  | cons c t =>
    rw [scMatch] at h
    by_cases hc : c = '<'
    · rw [if_pos hc] at h
      simp only at h
      by_cases hg : (t.takeWhile wChar).isEmpty
      · rw [if_pos hg] at h
        exact absurd h (by simp)
      · rw [if_neg hg] at h
        cases hscan : scanTail (t.dropWhile wChar) with
        | none => rw [hscan] at h; simp at h
        | some p =>
          rw [hscan] at h
          cases p with
          | mk g2t restt =>
            simp only [Option.some.injEq, Prod.mk.injEq] at h
            obtain ⟨h1, h2, h3⟩ := h
            subst hc h1 h2 h3
            constructor
            · have hd := scanTail_spec _ _ _ hscan
              rw [← hd, List.takeWhile_append_dropWhile]
            · intro habs
              rw [habs] at hg
              exact hg rfl
    · rw [if_neg hc] at h
      exact absurd h (by simp)

theorem expandAux_nil : ∀ f, expandAux f [] = [] := by
  intro f
  cases f <;> rfl

theorem expandAux_last : ∀ (fuel : Nat) (s : List Char), s.getLast? = some '>' →
    (expandAux fuel s).getLast? = some '>' := by
  intro fuel
  induction fuel with
  | zero => intro s hs; exact hs
  | succ f ih =>
    intro s hs
    cases s with
    | nil => simp at hs
    | cons c t =>
      cases hm : scMatch (c :: t) with
      | none =>
        rw [show expandAux (f + 1) (c :: t) =
            (match scMatch (c :: t) with
             | some (g1, g2, rest) =>
               '<' :: (g1 ++ (g2 ++ ('>' :: ('<' :: ('/' :: (g1 ++ ('>' :: expandAux f rest)))))))
             | none => c :: expandAux f t) from rfl, hm]
        show (c :: expandAux f t).getLast? = some '>'
        cases t with
        | nil =>
          rw [expandAux_nil]
          exact hs
        | cons y t2 =>
          have ht : (y :: t2).getLast? = some '>' := by
            rw [← hs]
            exact (glCons c (by simp)).symm
          have hrec := ih (y :: t2) ht
          rw [glCons c (glSome_ne_nil hrec)]
          exact hrec
      | some g =>
        obtain ⟨g1, g2, rest⟩ := g
        rw [show expandAux (f + 1) (c :: t) =
            (match scMatch (c :: t) with
             | some (g1, g2, rest) =>
               '<' :: (g1 ++ (g2 ++ ('>' :: ('<' :: ('/' :: (g1 ++ ('>' :: expandAux f rest)))))))
             | none => c :: expandAux f t) from rfl, hm]
        show ('<' :: (g1 ++ (g2 ++ ('>' :: ('<' :: ('/' ::
          (g1 ++ ('>' :: expandAux f rest)))))))).getLast? = some '>'
        obtain ⟨hspec, -⟩ := scMatch_spec _ _ _ _ hm
        by_cases hrest : rest = []
        · subst hrest
          rw [expandAux_nil]
          rw [glCons _ (by simp), glAppend _ (by simp), glAppend _ (by simp),
            glCons _ (by simp), glCons _ (by simp), glCons _ (by simp),
            glAppend _ (by simp)]
          rfl
        · have hrl : rest.getLast? = some '>' := by
            rw [← hs, hspec]
            rw [glCons _ (by simp), glAppend _ (by simp), glAppend _ (by simp),
              glCons _ (by simp), glCons _ (by simp [hrest])]
          have hrec := ih rest hrl
          rw [glCons _ (by simp), glAppend _ (by simp), glAppend _ (by simp),
            glCons _ (by simp), glCons _ (by simp), glCons _ (by simp),
            glAppend _ (by simp [glSome_ne_nil hrec]),
            glCons _ (glSome_ne_nil hrec)]
          exact hrec

/-- **C9.** Both builders end their output with exactly one newline
character: the output splits as `t ++ ['\n']` where `t` does not itself
end in a newline (its last character is the `>` closing the root
element). -/
theorem claim_C9_trailing_newline (fuel : Nat) (v : JVal) (rootName : String)
    (h : renderable fuel v = true) :
    (∃ t, (buildXml fuel v rootName).data = t ++ ['\n'] ∧ t.getLast? ≠ some '\n') ∧
    (∃ t, (buildMetadataXml fuel v rootName).data = t ++ ['\n'] ∧
      t.getLast? ≠ some '\n') := by
  have hdoc := renderDoc_last fuel v rootName h
  have h1 : (restoreXmlEntities (String.mk (renderDoc fuel rootName v))).data.getLast? =
      some '>' :=
    unmaskL_getLast hdoc
  have h2 : (expandSelfClosing (restoreXmlEntities
      (String.mk (renderDoc fuel rootName v)))).data.getLast? = some '>' :=
    expandAux_last _ _ h1
  constructor
  · refine ⟨(restoreXmlEntities (String.mk (renderDoc fuel rootName v))).data, ?_, ?_⟩
    · unfold buildXml addFinalNL
      rw [if_neg (by unfold endsWithNL; rw [h1]; decide)]
      rw [String.data_append]
    · rw [h1]
      decide
  · refine ⟨(expandSelfClosing (restoreXmlEntities
        (String.mk (renderDoc fuel rootName v)))).data, ?_, ?_⟩
    · unfold buildMetadataXml addFinalNL
      rw [if_neg (by unfold endsWithNL; rw [h2]; decide)]
      rw [String.data_append]
    · rw [h2]
      decide

/-- Witness for C9 on the `<Test><selfClosing/></Test>` document. -/
theorem claim_C9_trailing_newline_witness :
    renderable 3 selfTree = true ∧
    ((∃ t, (buildXml 3 selfTree "Test").data = t ++ ['\n'] ∧ t.getLast? ≠ some '\n') ∧
     (∃ t, (buildMetadataXml 3 selfTree "Test").data = t ++ ['\n'] ∧
       t.getLast? ≠ some '\n')) :=
  ⟨by decide, claim_C9_trailing_newline 3 selfTree "Test" (by decide)⟩

/-!
## Claim C1: idempotence

The fueled twins are proved to agree with the originals, the generic
fallback is shown to break idempotence on `genDoc`, and idempotence is
then established for `goodTree` documents.
-/

theorem jval_sizeOf_pos (v : JVal) : 0 < sizeOf v := by
  cases v <;> simp_arith

theorem bool_eq_of_iff {a b : Bool} (h : a = true ↔ b = true) : a = b := by
  cases a <;> cases b <;> simp_all

theorem attach_all_eq {α : Type} (l : List α) (f : α → Bool) :
    l.attach.all (fun p => f p.1) = l.all f := by
  apply bool_eq_of_iff
  simp [List.all_eq_true]

theorem all_congr_mem {α : Type} {l : List α} {f g : α → Bool}
    (h : ∀ x ∈ l, f x = g x) : l.all f = l.all g := by
  induction l with
  | nil => rfl
  | cons a t ih =>
    simp only [List.all_cons, h a (by simp),
      ih (fun x hx => h x (List.mem_cons_of_mem a hx))]

theorem sortXmlElementsF_eq : ∀ (fuel : Nat) (v : JVal) (pk : Option String),
    sizeOf v ≤ fuel → sortXmlElementsF fuel v pk = sortXmlElements v pk := by
  intro fuel
  induction fuel with
  | zero =>
    intro v pk h
    exact absurd h (by have := jval_sizeOf_pos v; omega)
  | succ f ih =>
    intro v pk h
    cases v with
    | null => rw [sortXml_null]; rfl
    | str s => rw [sortXml_str]; rfl
    | arr xs =>
      have hx : ∀ x ∈ xs, sizeOf x ≤ f := by
        intro x hmem
        have h1 := List.sizeOf_lt_of_mem hmem
        rw [JVal.arr.sizeOf_spec] at h
        omega
      rw [show sortXmlElementsF (f + 1) (.arr xs) pk =
          (if pk = some "classAccesses" then
            JVal.arr ((sortClassAccesses xs).map (fun i => sortXmlElementsF f i none))
          else if keyTruthy pk && headIsObj xs then
            JVal.arr ((sortArrayElements xs (pk.getD "")).map
              (fun i => sortXmlElementsF f i none))
          else
            JVal.arr (xs.map (fun i => sortXmlElementsF f i none))) from rfl]
      by_cases h1 : pk = some "classAccesses"
      · subst h1
        rw [if_pos rfl, sortXml_arr_ca]
        congr 1
        apply List.map_congr_left
        intro x hmem
        exact ih x none (hx x ((jsSort_perm compCA xs).mem_iff.mp hmem))
      · by_cases h2 : (keyTruthy pk && headIsObj xs) = true
        · rw [if_neg h1, if_pos h2, sortXml_arr_sorted xs pk h1 h2]
          congr 1
          apply List.map_congr_left
          intro x hmem
          exact ih x none (hx x ((jsSort_perm _ xs).mem_iff.mp hmem))
        · rw [if_neg h1, if_neg h2, sortXml_arr_plain xs pk h1 (by
            cases hb : (keyTruthy pk && headIsObj xs) with
            | false => rfl
            | true => exact absurd hb h2)]
          congr 1
          apply List.map_congr_left
          intro x hmem
          exact ih x none (hx x hmem)
    | obj kvs =>
      rw [show sortXmlElementsF (f + 1) (.obj kvs) pk =
          JVal.obj (jsSort (fun p q => cmpStr p.1 q.1)
            (kvs.map (fun kv => (kv.1, sortXmlElementsF f kv.2 (some kv.1))))) from rfl]
      rw [sortXml_obj]
      congr 1
      congr 1
      apply List.map_congr_left
      intro kv hmem
      have h1 := List.sizeOf_lt_of_mem hmem
      rw [JVal.obj.sizeOf_spec] at h
      have h2 : sizeOf kv.2 < sizeOf kv := by
        cases kv with
        | mk a b => simp only [Prod.mk.sizeOf_spec]; omega
      congr 1
      exact ih kv.2 (some kv.1) (by omega)

theorem goodTree_str (s : String) (ctx : Option String) :
    goodTree (.str s) ctx = true := by
  rw [goodTree]

theorem goodTree_null (ctx : Option String) : goodTree .null ctx = false := by
  rw [goodTree]

theorem goodTree_obj (kvs : List (String × JVal)) (ctx : Option String) :
    goodTree (.obj kvs) ctx =
      (((kvs.map Prod.fst).Nodup : Bool) &&
        kvs.all (fun p => goodTree p.2 (some p.1))) := by
  rw [goodTree]
  congr 1
  exact attach_all_eq kvs (fun p => goodTree p.2 (some p.1))

theorem goodTree_arr (xs : List JVal) (ctx : Option String) :
    goodTree (.arr xs) ctx =
      (if ctx = some "classAccesses" then
        xs.all (fun x => elemStable ["apexClass"] x && goodTree x none)
      else if keyTruthy ctx && headIsObj xs then
        if ctx = some "fieldPermissions" then
          xs.all (fun x => elemStable ["field"] x && goodTree x none)
        else if (ctx.getD "") ∈ sfCtxKeys then
          xs.all (fun x => elemStable sfCands x && goodTree x none)
        else
          decide (xs.length ≤ 1) && xs.all (fun x => goodTree x none)
      else
        xs.all (fun x => goodTree x none)) := by
  rw [goodTree]
  split_ifs with h1 h2 h3 h4
  · exact attach_all_eq xs (fun x => elemStable ["apexClass"] x && goodTree x none)
  · exact attach_all_eq xs (fun x => elemStable ["field"] x && goodTree x none)
  · exact attach_all_eq xs (fun x => elemStable sfCands x && goodTree x none)
  · rw [attach_all_eq xs (fun x => goodTree x none)]
  · exact attach_all_eq xs (fun x => goodTree x none)

theorem goodTreeF_eq : ∀ (fuel : Nat) (v : JVal) (ctx : Option String),
    sizeOf v ≤ fuel → goodTreeF fuel v ctx = goodTree v ctx := by
  intro fuel
  induction fuel with
  | zero =>
    intro v ctx h
    exact absurd h (by have := jval_sizeOf_pos v; omega)
  | succ f ih =>
    intro v ctx h
    cases v with
    | null => rw [goodTree_null]; rfl
    | str s => rw [goodTree_str]; rfl
    | arr xs =>
      have hx : ∀ x ∈ xs, sizeOf x ≤ f := by
        intro x hmem
        have h1 := List.sizeOf_lt_of_mem hmem
        rw [JVal.arr.sizeOf_spec] at h
        omega
      rw [show goodTreeF (f + 1) (.arr xs) ctx =
          (if ctx = some "classAccesses" then
            xs.all (fun x => elemStable ["apexClass"] x && goodTreeF f x none)
          else if keyTruthy ctx && headIsObj xs then
            if ctx = some "fieldPermissions" then
              xs.all (fun x => elemStable ["field"] x && goodTreeF f x none)
            else if (ctx.getD "") ∈ sfCtxKeys then
              xs.all (fun x => elemStable sfCands x && goodTreeF f x none)
            else
              decide (xs.length ≤ 1) && xs.all (fun x => goodTreeF f x none)
          else
            xs.all (fun x => goodTreeF f x none)) from rfl]
      rw [goodTree_arr]
      split_ifs with h1 h2 h3 h4
      · exact all_congr_mem (fun x hmem => by rw [ih x none (hx x hmem)])
      · exact all_congr_mem (fun x hmem => by rw [ih x none (hx x hmem)])
      · exact all_congr_mem (fun x hmem => by rw [ih x none (hx x hmem)])
      · rw [all_congr_mem (fun x hmem => by rw [ih x none (hx x hmem)])]
      · exact all_congr_mem (fun x hmem => by rw [ih x none (hx x hmem)])
    | obj kvs =>
      rw [show goodTreeF (f + 1) (.obj kvs) ctx =
          (((kvs.map Prod.fst).Nodup : Bool) &&
            kvs.all (fun p => goodTreeF f p.2 (some p.1))) from rfl]
      rw [goodTree_obj]
      congr 1
      apply all_congr_mem
      intro kv hmem
      have h1 := List.sizeOf_lt_of_mem hmem
      rw [JVal.obj.sizeOf_spec] at h
      have h2 : sizeOf kv.2 < sizeOf kv := by
        cases kv with
        | mk a b => simp only [Prod.mk.sizeOf_spec]; omega
      rw [ih kv.2 (some kv.1) (by omega)]

/-- **C1, counterexample.** Canonicalization is NOT idempotent: the
generic fallback picks its sort key from the FIRST element's key order
(`keys.find(k => ...) || keys[0]`), which canonicalization itself
changes by sorting the mapping keys.  On `genDoc` the first pass keeps
the element order (key `bName`: "1" < "2"), the second pass swaps it
(key `aName`, now first after the key sort: "9" > "8"), so the probed
`bName` value of the first element changes from "1" to "2" between
pass one and pass two. -/
theorem claim_C1_idempotence_cex :
    firstItemB (sortXmlElements genDoc none) = "1" ∧
    firstItemB (sortXmlElements (sortXmlElements genDoc none) none) = "2" := by
  have h1 : sortXmlElements genDoc none =
      JVal.obj [("items", JVal.arr
        [JVal.obj [("aName", JVal.arr [JVal.str "9"]),
                   ("bName", JVal.arr [JVal.str "1"])],
         JVal.obj [("aName", JVal.arr [JVal.str "8"]),
                   ("bName", JVal.arr [JVal.str "2"])]])] := by
    rw [← sortXmlElementsF_eq (sizeOf genDoc) genDoc none le_rfl]
    rfl
  have h2 : sortXmlElements
      (JVal.obj [("items", JVal.arr
        [JVal.obj [("aName", JVal.arr [JVal.str "9"]),
                   ("bName", JVal.arr [JVal.str "1"])],
         JVal.obj [("aName", JVal.arr [JVal.str "8"]),
                   ("bName", JVal.arr [JVal.str "2"])]])]) none =
      JVal.obj [("items", JVal.arr
        [JVal.obj [("aName", JVal.arr [JVal.str "8"]),
                   ("bName", JVal.arr [JVal.str "2"])],
         JVal.obj [("aName", JVal.arr [JVal.str "9"]),
                   ("bName", JVal.arr [JVal.str "1"])]])] := by
    rw [← sortXmlElementsF_eq (sizeOf (JVal.obj [("items", JVal.arr
        [JVal.obj [("aName", JVal.arr [JVal.str "9"]),
                   ("bName", JVal.arr [JVal.str "1"])],
         JVal.obj [("aName", JVal.arr [JVal.str "8"]),
                   ("bName", JVal.arr [JVal.str "2"])]])])) _ none le_rfl]
    rfl
  refine ⟨?_, ?_⟩
  · rw [h1]
    rfl
  · rw [h1, h2]
    rfl

theorem jsSort_singleton {α : Type} (c : α → α → Ordering) (x : α) :
    jsSort c [x] = [x] := rfl

theorem jLookup_map (kvs : List (String × JVal)) (g : String → JVal → JVal)
    (k : String) :
    jLookup (kvs.map (fun kv => (kv.1, g kv.1 kv.2))) k =
      (jLookup kvs k).map (g k) := by
  induction kvs with
  | nil => rfl
  | cons kv t ih =>
    cases kv with
    | mk k1 v =>
      rw [List.map_cons, jLookup, jLookup]
      by_cases h : k1 = k
      · subst h
        rw [if_pos rfl, if_pos rfl]
        rfl
      · rw [if_neg h, if_neg h]
        exact ih

theorem jLookup_perm : ∀ {kvs1 kvs2 : List (String × JVal)}, kvs1.Perm kvs2 →
    (kvs1.map Prod.fst).Nodup → ∀ k, jLookup kvs1 k = jLookup kvs2 k := by
  intro kvs1 kvs2 hperm
  induction hperm with
  | nil => intro _ k; rfl
  | cons x l ih =>
    intro hnd k
    cases x with
    | mk k1 v =>
      rw [jLookup, jLookup]
      by_cases h : k1 = k
      · rw [if_pos h, if_pos h]
      · rw [if_neg h, if_neg h]
        exact ih (by
          rw [List.map_cons] at hnd
          exact hnd.of_cons) k
  | swap x y l =>
    intro hnd k
    cases x with
    | mk kx vx =>
      cases y with
      | mk ky vy =>
        rw [List.map_cons, List.map_cons, List.nodup_cons] at hnd
        have hne : ky ≠ kx := fun he => hnd.1 (by rw [he]; simp)
        rw [jLookup, jLookup, jLookup, jLookup]
        by_cases h1 : ky = k
        · rw [if_pos h1, if_neg (fun h2 => hne (h1.trans h2.symm)), if_pos h1]
        · by_cases h2 : kx = k
          · rw [if_neg h1, if_pos h2, if_pos h2]
          · rw [if_neg h1, if_neg h2, if_neg h2, if_neg h1]
  | trans p1 p2 ih1 ih2 =>
    intro hnd k
    exact (ih1 hnd k).trans (ih2 ((p1.map Prod.fst).nodup_iff.mp hnd) k)

theorem getField_sortXml_obj (kvs : List (String × JVal)) (pk : Option String)
    (hnd : (kvs.map Prod.fst).Nodup) (k : String) :
    getField (sortXmlElements (.obj kvs) pk) k =
      (getField (.obj kvs) k).map (fun v => sortXmlElements v (some k)) := by
  rw [sortXml_obj]
  show jLookup (jsSort (fun p q => cmpStr p.1 q.1)
      (kvs.map (fun kv => (kv.1, sortXmlElements kv.2 (some kv.1))))) k =
    (jLookup kvs k).map (fun v => sortXmlElements v (some k))
  have hkeys : ((kvs.map (fun kv => (kv.1, sortXmlElements kv.2 (some kv.1)))).map
      Prod.fst) = kvs.map Prod.fst := by
    rw [List.map_map]
    rfl
  have hperm := jsSort_perm (fun p q => cmpStr p.1 q.1)
    (kvs.map (fun kv => (kv.1, sortXmlElements kv.2 (some kv.1))))
  rw [jLookup_perm hperm (by
    rw [(hperm.map Prod.fst).nodup_iff, hkeys]
    exact hnd) k]
  exact jLookup_map kvs (fun k1 v => sortXmlElements v (some k1)) k

theorem sortXml_scalar (xs : List JVal) (hs : scalarArr (.arr xs) = true)
    (pk : Option String) (hpk : ¬ pk = some "classAccesses") :
    sortXmlElements (.arr xs) pk = .arr xs := by
  rw [scalarArr, List.all_eq_true] at hs
  have hho : headIsObj xs = false := by
    cases xs with
    | nil => rfl
    | cons x t =>
      have := hs x (by simp)
      cases x <;> simp_all [headIsObj, isObjType]
  rw [sortXml_arr_plain xs pk hpk (by rw [hho, Bool.and_false])]
  congr 1
  have h2 : xs.map (fun i => sortXmlElements i none) = xs.map id :=
    List.map_congr_left (fun x hx => by
      have := hs x hx
      cases x with
      | str s => rw [sortXml_str]; rfl
      | null => simp at this
      | arr l => simp at this
      | obj l => simp at this)
  rw [h2, List.map_id]

theorem valChain_congr (a b : JVal) : ∀ (fields : List String),
    (∀ f ∈ fields, (getField a f).bind (fun v => getField v "0") =
      (getField b f).bind (fun v => getField v "0")) →
    valChain a fields = valChain b fields := by
  intro fields
  induction fields with
  | nil => intro _; rfl
  | cons f fs ih =>
    intro h
    rw [valChain, valChain, h f (by simp)]
    cases h2 : truthyStr ((getField b f).bind fun v => getField v "0") with
    | some s => rfl
    | none => exact ih (fun f2 hf2 => h f2 (List.mem_cons_of_mem f hf2))

theorem sortKey_sortXml (fields : List String) (e : JVal)
    (hst : elemStable fields e = true)
    (hfl : ∀ f ∈ fields, ¬ f = "classAccesses") :
    valChain (sortXmlElements e none) fields = valChain e fields := by
  cases e with
  | str s => rw [sortXml_str]
  | null =>
    rw [show elemStable fields JVal.null = false from rfl] at hst
    exact absurd hst (by simp)
  | arr l =>
    rw [show elemStable fields (JVal.arr l) = false from rfl] at hst
    exact absurd hst (by simp)
  | obj kvs =>
    rw [elemStable] at hst
    simp only [Bool.and_eq_true, decide_eq_true_eq, List.all_eq_true] at hst
    obtain ⟨hnd, hflds⟩ := hst
    apply valChain_congr
    intro f hf
    rw [getField_sortXml_obj kvs none hnd f]
    cases hlk : getField (.obj kvs) f with
    | none => rfl
    | some v =>
      have hsv := hflds f hf
      rw [show jLookup kvs f = some v from hlk] at hsv
      simp only at hsv
      have hident : sortXmlElements v (some f) = v := by
        cases v with
        | str s2 => rw [sortXml_str]
        | null => simp [scalarArr] at hsv
        | obj l2 => simp [scalarArr] at hsv
        | arr l2 => exact sortXml_scalar l2 hsv (some f) (by
            intro he
            exact hfl f hf (by injection he))
      rw [Option.map_some', hident]

theorem isObjType_sortXml (v : JVal) (pk : Option String) :
    isObjType (sortXmlElements v pk) = isObjType v := by
  cases v with
  | null => rw [sortXml_null]
  | str s => rw [sortXml_str]
  | obj kvs => rw [sortXml_obj]; rfl
  | arr xs =>
    by_cases h1 : pk = some "classAccesses"
    · subst h1; rw [sortXml_arr_ca]; rfl
    · by_cases h2 : (keyTruthy pk && headIsObj xs) = true
      · rw [sortXml_arr_sorted xs pk h1 h2]; rfl
      · rw [sortXml_arr_plain xs pk h1 (Bool.not_eq_true _ ▸ h2)]; rfl

theorem headIsObj_map_sortXml (xs : List JVal) :
    headIsObj (xs.map (fun i => sortXmlElements i none)) = headIsObj xs := by
  cases xs with
  | nil => rfl
  | cons x t =>
    rw [List.map_cons]
    show isObjType (sortXmlElements x none) = isObjType x
    exact isObjType_sortXml x none

theorem sorted_map_of_key_eq (κ : JVal → String) (l : List JVal) (f : JVal → JVal)
    (hk : ∀ x ∈ l, κ (f x) = κ x)
    (hs : List.Pairwise (fun a b => ¬ κ b < κ a) l) :
    List.Pairwise (fun a b => ¬ κ b < κ a) (l.map f) := by
  rw [List.pairwise_map]
  exact List.Pairwise.imp_of_mem
    (fun ha hb h => by rw [hk _ ha, hk _ hb]; exact h) hs

theorem sortXml_idem : ∀ (n : Nat) (v : JVal), sizeOf v ≤ n → ∀ (ctx : Option String),
    goodTree v ctx = true →
    sortXmlElements (sortXmlElements v ctx) ctx = sortXmlElements v ctx := by
  intro n
  induction n with
  | zero =>
    intro v h
    exact absurd h (by have := jval_sizeOf_pos v; omega)
  | succ n ih =>
    intro v hsz ctx hg
    cases v with
    | null => rw [goodTree_null] at hg; exact absurd hg (by simp)
    | str s => rw [sortXml_str, sortXml_str]
    | obj kvs =>
      rw [goodTree_obj] at hg
      simp only [Bool.and_eq_true, List.all_eq_true, decide_eq_true_eq] at hg
      obtain ⟨hnd, hall⟩ := hg
      have hszk : ∀ kv ∈ kvs, sizeOf kv.2 ≤ n := by
        intro kv hmem
        have h1 := List.sizeOf_lt_of_mem hmem
        rw [JVal.obj.sizeOf_spec] at hsz
        have h2 : sizeOf kv.2 < sizeOf kv := by
          cases kv with
          | mk a b => simp only [Prod.mk.sizeOf_spec]; omega
        omega
      rw [sortXml_obj kvs ctx, sortXml_obj]
      congr 1
      have hmapid : (jsSort (fun p q => cmpStr p.1 q.1)
          (kvs.map (fun kv => (kv.1, sortXmlElements kv.2 (some kv.1))))).map
            (fun kv => (kv.1, sortXmlElements kv.2 (some kv.1))) =
          jsSort (fun p q => cmpStr p.1 q.1)
            (kvs.map (fun kv => (kv.1, sortXmlElements kv.2 (some kv.1)))) := by
        have hmem : ∀ kv ∈ jsSort (fun p q => cmpStr p.1 q.1)
            (kvs.map (fun kv => (kv.1, sortXmlElements kv.2 (some kv.1)))),
            (kv.1, sortXmlElements kv.2 (some kv.1)) = id kv := by
          intro kv hkv
          have h1 := (jsSort_perm _ _).mem_iff.mp hkv
          rcases List.mem_map.mp h1 with ⟨kv0, hkv0, rfl⟩
          show (kv0.1, sortXmlElements (sortXmlElements kv0.2 (some kv0.1))
            (some kv0.1)) = _
          rw [ih kv0.2 (hszk kv0 hkv0) (some kv0.1) (hall kv0 hkv0)]
          rfl
        exact (List.map_congr_left hmem).trans (List.map_id _)
      rw [hmapid]
      exact jsSort_sorted_id (fun p : String × JVal => p.1) _
        (jsSort_sorted (fun p : String × JVal => p.1) _)
    | arr xs =>
      have hszx : ∀ x ∈ xs, sizeOf x ≤ n := by
        intro x hmem
        have h1 := List.sizeOf_lt_of_mem hmem
        rw [JVal.arr.sizeOf_spec] at hsz
        omega
      rw [goodTree_arr] at hg
      by_cases h1 : ctx = some "classAccesses"
      · subst h1
        rw [if_pos rfl] at hg
        simp only [List.all_eq_true, Bool.and_eq_true] at hg
        rw [sortXml_arr_ca xs, sortXml_arr_ca]
        congr 1
        have hkeyinv : ∀ x ∈ jsSort (fun a b => cmpStr (keyCA a) (keyCA b)) xs,
            keyCA (sortXmlElements x none) = keyCA x := by
          intro x hx
          have hx2 : x ∈ xs := (jsSort_perm _ xs).mem_iff.mp hx
          exact sortKey_sortXml ["apexClass"] x (hg x hx2).1 (by decide)
        have hsorted : List.Pairwise (fun a b => ¬ keyCA b < keyCA a)
            (jsSort (fun a b => cmpStr (keyCA a) (keyCA b)) xs) :=
          jsSort_sorted keyCA xs
        have hid : sortClassAccesses ((sortClassAccesses xs).map
            (fun i => sortXmlElements i none)) =
            (sortClassAccesses xs).map (fun i => sortXmlElements i none) := by
          unfold sortClassAccesses
          rw [compCA_eq]
          exact jsSort_sorted_id keyCA _
            (sorted_map_of_key_eq keyCA _ _ hkeyinv hsorted)
        rw [hid, List.map_map]
        apply List.map_congr_left
        intro x hx
        have hx2 : x ∈ xs := (jsSort_perm compCA xs).mem_iff.mp hx
        show sortXmlElements (sortXmlElements x none) none = sortXmlElements x none
        exact ih x (hszx x hx2) none (hg x hx2).2
      · by_cases h2 : (keyTruthy ctx && headIsObj xs) = true
        · rw [if_neg h1, if_pos h2] at hg
          cases ctx with
          | none => simp [keyTruthy] at h2
          | some k =>
            have h2p := h2
            simp only [Bool.and_eq_true] at h2p
            rw [sortXml_arr_sorted xs (some k) h1 h2,
              show Option.getD (some k) "" = k from rfl]
            rw [show Option.getD (some k) "" = k from rfl] at hg
            have hcore : (∀ x ∈ xs, goodTree x none = true) ∧
                sortArrayElements ((sortArrayElements xs k).map
                  (fun i => sortXmlElements i none)) k =
                (sortArrayElements xs k).map (fun i => sortXmlElements i none) := by
              by_cases hfp : k = "fieldPermissions"
              · subst hfp
                rw [if_pos rfl] at hg
                simp only [List.all_eq_true, Bool.and_eq_true] at hg
                refine ⟨fun x hx => (hg x hx).2, ?_⟩
                have hkeyinv : ∀ x ∈ jsSort (fun a b => cmpStr (keyFP a) (keyFP b)) xs,
                    keyFP (sortXmlElements x none) = keyFP x := by
                  intro x hx
                  have hx2 : x ∈ xs := (jsSort_perm _ xs).mem_iff.mp hx
                  exact sortKey_sortXml ["field"] x (hg x hx2).1 (by decide)
                have hsorted : List.Pairwise (fun a b => ¬ keyFP b < keyFP a)
                    (jsSort (fun a b => cmpStr (keyFP a) (keyFP b)) xs) :=
                  jsSort_sorted keyFP xs
                unfold sortArrayElements
                rw [compArr_fp]
                exact jsSort_sorted_id keyFP _
                  (sorted_map_of_key_eq keyFP _ _ hkeyinv hsorted)
              · rw [if_neg (fun he => hfp (by injection he))] at hg
                by_cases hsf : k ∈ sfCtxKeys
                · rw [if_pos hsf] at hg
                  simp only [List.all_eq_true, Bool.and_eq_true] at hg
                  refine ⟨fun x hx => (hg x hx).2, ?_⟩
                  have hkeyinv : ∀ x ∈ jsSort (fun a b => cmpStr (keySF a) (keySF b)) xs,
                      keySF (sortXmlElements x none) = keySF x := by
                    intro x hx
                    have hx2 : x ∈ xs := (jsSort_perm _ xs).mem_iff.mp hx
                    exact sortKey_sortXml sfCands x (hg x hx2).1 (by decide)
                  have hsorted : List.Pairwise (fun a b => ¬ keySF b < keySF a)
                      (jsSort (fun a b => cmpStr (keySF a) (keySF b)) xs) :=
                    jsSort_sorted keySF xs
                  unfold sortArrayElements
                  rw [compArr_sf k hsf]
                  exact jsSort_sorted_id keySF _
                    (sorted_map_of_key_eq keySF _ _ hkeyinv hsorted)
                · rw [if_neg hsf] at hg
                  simp only [Bool.and_eq_true, decide_eq_true_eq,
                    List.all_eq_true] at hg
                  obtain ⟨hlen, hgt⟩ := hg
                  refine ⟨hgt, ?_⟩
                  obtain ⟨x, rfl⟩ : ∃ x, xs = [x] := by
                    cases xs with
                    | nil => simp [headIsObj] at h2p
                    | cons x t =>
                      cases t with
                      | nil => exact ⟨x, rfl⟩
                      | cons y t2 => simp at hlen
                  rfl
            by_cases hho : headIsObj ((sortArrayElements xs k).map
                (fun i => sortXmlElements i none)) = true
            · rw [sortXml_arr_sorted _ (some k) h1
                (by rw [h2p.1, hho]; rfl),
                show Option.getD (some k) "" = k from rfl]
              rw [hcore.2]
              congr 1
              rw [List.map_map]
              apply List.map_congr_left
              intro x hx
              have hx2 : x ∈ xs := (jsSort_perm _ xs).mem_iff.mp hx
              show sortXmlElements (sortXmlElements x none) none =
                sortXmlElements x none
              exact ih x (hszx x hx2) none (hcore.1 x hx2)
            · have hhof : headIsObj ((sortArrayElements xs k).map
                  (fun i => sortXmlElements i none)) = false :=
                Bool.not_eq_true _ ▸ hho
              rw [sortXml_arr_plain _ (some k) h1 (by rw [hhof, Bool.and_false])]
              congr 1
              rw [List.map_map]
              apply List.map_congr_left
              intro x hx
              have hx2 : x ∈ xs := (jsSort_perm _ xs).mem_iff.mp hx
              show sortXmlElements (sortXmlElements x none) none =
                sortXmlElements x none
              exact ih x (hszx x hx2) none (hcore.1 x hx2)
        · have h2f : (keyTruthy ctx && headIsObj xs) = false := Bool.not_eq_true _ ▸ h2
          rw [if_neg h1, if_neg h2] at hg
          rw [List.all_eq_true] at hg
          rw [sortXml_arr_plain xs ctx h1 h2f]
          have h2f2 : (keyTruthy ctx && headIsObj (xs.map
              (fun i => sortXmlElements i none))) = false := by
            rw [headIsObj_map_sortXml]
            exact h2f
          rw [sortXml_arr_plain _ ctx h1 h2f2]
          congr 1
          rw [List.map_map]
          apply List.map_congr_left
          intro x hx
          show sortXmlElements (sortXmlElements x none) none = sortXmlElements x none
          exact ih x (hszx x hx) none (hg x hx)

/-- **C1, amended.** At the canonical-tree level, canonicalization is
idempotent on `goodTree` documents: documents whose sorted sequences
all fall under the rule-table contexts (`classAccesses`,
`fieldPermissions`, the seven named Salesforce contexts) with
canonicalization-stable element keys, and whose other element-headed
sequences have at most one element.  Sequences of two or more mappings
sorted through the generic fallback are excluded: as
`claim_C1_idempotence_cex` shows, their sort key depends on the first
element's key order, which canonicalization itself changes. -/
theorem claim_C1_idempotence_good (v : JVal) (h : goodTree v none = true) :
    sortXmlElements (sortXmlElements v none) none = sortXmlElements v none :=
  sortXml_idem (sizeOf v) v le_rfl none h

/-- Witness for the amended C1 on a two-element `fieldPermissions`
document. -/
theorem claim_C1_idempotence_good_witness :
    goodTree (JVal.obj [("fieldPermissions",
      JVal.arr [fpElem "b", fpElem "a"])]) none = true ∧
    sortXmlElements (sortXmlElements (JVal.obj [("fieldPermissions",
      JVal.arr [fpElem "b", fpElem "a"])]) none) none =
      sortXmlElements (JVal.obj [("fieldPermissions",
        JVal.arr [fpElem "b", fpElem "a"])]) none := by
  have hgood : goodTree (JVal.obj [("fieldPermissions",
      JVal.arr [fpElem "b", fpElem "a"])]) none = true := by
    rw [← goodTreeF_eq (sizeOf (JVal.obj [("fieldPermissions",
      JVal.arr [fpElem "b", fpElem "a"])])) _ none le_rfl]
    rfl
  exact ⟨hgood, claim_C1_idempotence_good _ hgood⟩
